import Mathlib

/-!
Verification of the `rooms-scheduler` scheduling engine
(`src/rooms-scheduler/src/scheduler/algorithm.rs`, data model in
`src/rooms-scheduler/src/models.rs`).

The Rust code is shallowly embedded as executable Lean functions:

* `Room` and `Activity` mirror the `serde` structs (u32 fields become `Nat`;
  no arithmetic in the algorithm can overflow u32/u16 on the list sizes the
  theorems quantify over, and the single subtraction `current_time_slot - 1`
  is guarded by the theorem for claim C10).
* `simultaneus_activities_in_timeslot`, `max_simultaneus_activities`,
  `sort_activities`, `distance`, `get_best_room` and `pop_activity` are direct
  transcriptions of the homonymous Rust functions.  `get_best_room` returns
  `Option Room` with `none` for the `unwrap` panic on an empty candidate list;
  Rust's `Iterator::min_by_key` keeps the first element attaining the minimum,
  which is the fold below.
* The `while !activities.is_empty()` simulation loop of `run_scheduler` can
  genuinely diverge (claim C4), so it is embedded as a step function
  `loopStep` on a `SchedState` record driven by a fuel counter (`schedLoop`);
  `run_scheduler fuel acts rooms = none` means the loop has not finished
  within `fuel` iterations, and `SchedReturns` existentially quantifies the
  fuel to express "the Rust function returns".
* The inner admission loop `while !activities_start_in_time_slot.is_empty()`
  pops from the *end* of the batch (`Vec::pop`).  It is transcribed verbatim
  as `admissionLoop` (well-founded recursion via `pop_activity`), and, to keep
  the whole interpreter computable by `rfl`, the simulation uses the
  structurally recursive `admissionGo` over the reversed batch;
  `admissionLoop_eq_phase` proves the two agree.
* Rust indexing `a.time_slots[0]` panics on an empty slot list.  `loopStep`
  surfaces this as the error `SchedErr.slotIndexPanic`: the `filter` closure
  in the Rust source evaluates `time_slots[0]` for every pending activity, so
  the panic fires exactly when some pending activity has empty `time_slots`.
  Similarly the `unwrap` in `get_best_room` is `SchedErr.bestRoomPanic` and
  the `InternalServerError` of `pop_activity` is `SchedErr.popFailed`.
-/

namespace RoomsScheduler

/-- `struct Room { name: String, capacity: u32 }` from `models.rs`. -/
structure Room where
  name : String
  capacity : Nat
deriving DecidableEq, Repr

/-- `struct Activity { id, subject, room, time_slots, students_count }` from
`models.rs`.  The request deserializer always supplies a `room` value; the
engine treats it as opaque until it assigns a room of its own. -/
structure Activity where
  id : Nat
  subject : String
  room : Room
  time_slots : List Nat
  students_count : Nat
deriving DecidableEq, Repr

/-- The outcomes of `run_scheduler` other than success: the `BadRequest`
("Not enough rooms to schedule all activities"), the `InternalServerError`
of `pop_activity`, the `unwrap` panic in `get_best_room`, and the
out-of-bounds panic of `activity.time_slots[0]`. -/
inductive SchedErr where
  | capacityInfeasible
  | popFailed
  | bestRoomPanic
  | slotIndexPanic
deriving DecidableEq, Repr

/-- `simultaneus_activities_in_timeslot`: counts the activities whose
`time_slots` contains `timeslot`. -/
def simultaneus_activities_in_timeslot (timeslot : Nat) (activities : List Activity) : Nat :=
  activities.foldl (fun count a => if a.time_slots.contains timeslot then count + 1 else count) 0

/-- One step of the accumulator loop inside `max_simultaneus_activities`:
state is `(max_count, time_slots_readys)`. -/
def maxSimStep (activities : List Activity) (st : Nat × List Nat) (time_slot : Nat) :
    Nat × List Nat :=
  if st.2.contains time_slot then st
  else (max st.1 (simultaneus_activities_in_timeslot time_slot activities), st.2 ++ [time_slot])

/-- `max_simultaneus_activities`: the two nested `for` loops (over activities,
then over each activity's `time_slots`) thread the mutable pair
`(max_count, time_slots_readys)`, which is exactly a fold over the
concatenation of all slot lists. -/
def max_simultaneus_activities (activities : List Activity) : Nat :=
  ((activities.flatMap (fun a => a.time_slots)).foldl (maxSimStep activities) (0, [])).1

/-- Stable insertion step: `a` is placed before the first element whose
`students_count` is not strictly smaller, so elements with equal counts keep
their input order. -/
def insertByCount (a : Activity) : List Activity → List Activity
  | [] => [a]
  | b :: l => if b.students_count < a.students_count then b :: insertByCount a l else a :: b :: l

/-- `sort_activities`: `Vec::sort_by(|a, b| a.students_count.cmp(&b.students_count))`
is a stable ascending sort.  A stable sort's output is uniquely determined by
the input, so we model it with stable insertion sort (proved sorted, a
permutation, and stable below). -/
def sort_activities (activities : List Activity) : List Activity :=
  activities.foldr insertByCount []

/-- `distance`: `if x1 > x0 { x1 - x0 } else { x0 - x1 }`. -/
def distance (x1 x0 : Nat) : Nat :=
  if x1 > x0 then x1 - x0 else x0 - x1

/-- One step of `min_by_key`: keep the current best unless the new room's
distance is strictly smaller (so the first room attaining the minimum wins). -/
def bestStep (activity : Activity) (best : Option Room) (r : Room) : Option Room :=
  match best with
  | none => some r
  | some b =>
    if distance r.capacity activity.students_count <
        distance b.capacity activity.students_count then some r else some b

/-- `get_best_room`: `rooms.into_iter().min_by_key(|r| distance(r.capacity,
activity.students_count))`.  `min_by_key` returns the first element attaining
the minimal key; the `.unwrap()` on an empty iterator is `none` here. -/
def get_best_room (activity : Activity) (rooms : List Room) : Option Room :=
  rooms.foldl (bestStep activity) none

/-- `pop_activity`'s underlying `Vec::pop`: removes and returns the last
element. -/
def pop_activity (l : List Activity) : Option (Activity × List Activity) :=
  match l.getLast? with
  | none => none
  | some a => some (a, l.dropLast)

/-- State of the admission inner loop: the collections it mutates. -/
structure AdmState where
  freeRooms : List Room
  scheduled : List Activity
  unscheduled : List Activity
  started : List Activity
deriving DecidableEq, Repr

/-- The inner `while !activities_start_in_time_slot.is_empty()` loop of
`run_scheduler`, transcribed with `pop_activity` exactly as in the source:
pop the last batch element, filter the free rooms by capacity, either push
the activity on `unscheduled` or assign the best-fitting room, remove it
from the free list (by name), and push the annotated activity on both
`started` and `scheduled`. -/
def admissionLoop (batch : List Activity) (st : AdmState) : Except SchedErr AdmState :=
  if batch.isEmpty then .ok st
  else
    match hpop : pop_activity batch with
    | none => .error .popFailed
    | some (activity, rest) =>
      let available : List Room :=
        st.freeRooms.filter (fun r => decide (activity.students_count ≤ r.capacity))
      if available.isEmpty then
        admissionLoop rest { st with unscheduled := st.unscheduled ++ [activity] }
      else
        match get_best_room activity available with
        | none => .error .bestRoomPanic
        | some best =>
          let activity' := { activity with room := best }
          admissionLoop rest
            { st with
              freeRooms := st.freeRooms.filter (fun r => r.name != best.name)
              started := st.started ++ [activity']
              scheduled := st.scheduled ++ [activity'] }
termination_by batch.length
decreasing_by
  all_goals
  · have hlen : rest.length < batch.length := by
      unfold pop_activity at hpop
      cases hl : batch.getLast? with
      | none => rw [hl] at hpop; exact absurd hpop (by simp)
      | some a' =>
        rw [hl] at hpop
        have hne : batch ≠ [] := by
          intro hnil
          rw [hnil] at hl
          exact absurd hl (by simp)
        have hrest : rest = batch.dropLast := by
          injection hpop with h
          injection h with h1 h2
          exact h2.symm
        rw [hrest, List.length_dropLast]
        have := List.length_pos.mpr hne
        omega
    exact hlen

/-- Structural companion of `admissionLoop`: processes the batch in the order
`Vec::pop` produces it, i.e. the *reversed* batch list head-first.  This
version is structurally recursive so that the whole interpreter computes by
`rfl`; `admissionLoop_eq_phase` identifies it with the verbatim
transcription. -/
def admissionGo : List Activity → AdmState → Except SchedErr AdmState
  | [], st => .ok st
  | activity :: rest, st =>
    if (st.freeRooms.filter
        (fun r => decide (activity.students_count ≤ r.capacity))).isEmpty then
      admissionGo rest { st with unscheduled := st.unscheduled ++ [activity] }
    else
      match get_best_room activity
          (st.freeRooms.filter
            (fun r => decide (activity.students_count ≤ r.capacity))) with
      | none => .error .bestRoomPanic
      | some best =>
        admissionGo rest
          { st with
            freeRooms := st.freeRooms.filter (fun r => r.name != best.name)
            started := st.started ++ [{ activity with room := best }]
            scheduled := st.scheduled ++ [{ activity with room := best }] }

/-- The admission phase as invoked by the simulation loop. -/
def admission_phase (batch : List Activity) (st : AdmState) : Except SchedErr AdmState :=
  admissionGo batch.reverse st

/-- The mutable state of `run_scheduler`'s `while !activities.is_empty()`
loop: `activities` is the pending list, plus the free-room list, the two
output accumulators, the started list and the clock. -/
structure SchedState where
  activities : List Activity
  freeRooms : List Room
  scheduled : List Activity
  unscheduled : List Activity
  started : List Activity
  currentSlot : Nat
deriving DecidableEq, Repr

/-- Result of one iteration of the simulation loop. -/
inductive StepResult where
  | done (scheduled unscheduled : List Activity)
  | next (st : SchedState)
  | fail (e : SchedErr)
deriving DecidableEq, Repr

/-- The release phase: `for activity in started_activities.clone()` — iterate
over a snapshot of `started_activities`; every activity whose `time_slots`
ends with `current_time_slot - 1` returns its room to `free_rooms`
(`Vec::push`) and is removed (`Vec::retain` by `id`) from both
`started_activities` and `activities`.  The threaded triple is
`(free_rooms, started_activities, activities)`. -/
def releaseStep (slot : Nat) (acc : List Room × List Activity × List Activity)
    (a : Activity) : List Room × List Activity × List Activity :=
  if decide (a.time_slots.getLast? = some (slot - 1)) then
    (acc.1 ++ [a.room],
     acc.2.1.filter (fun b => b.id != a.id),
     acc.2.2.filter (fun b => b.id != a.id))
  else acc

def releasePhase (slot : Nat) (free : List Room) (started pending : List Activity) :
    List Room × List Activity × List Activity :=
  started.foldl (releaseStep slot) (free, started, pending)

/-- The activities of the pending list whose first time slot equals the
current slot (`a.time_slots[0] == current_time_slot`). -/
def startingNowOf (st : SchedState) : List Activity :=
  st.activities.filter (fun a => decide (a.time_slots.head? = some st.currentSlot))

/-- One iteration of the `while !activities.is_empty()` loop.  The Rust
`filter` closure indexes `a.time_slots[0]` for every pending activity, so the
iteration panics (`slotIndexPanic`) exactly when some pending activity has an
empty `time_slots`.  Otherwise: idle tick when nothing starts now and nothing
is started; else release phase, then admission of the batch (popped from the
end, i.e. the reversed batch in order), then the clock advances. -/
def loopStep (st : SchedState) : StepResult :=
  if st.activities.isEmpty then .done st.scheduled st.unscheduled
  else if st.activities.any (fun a => a.time_slots.isEmpty) then .fail .slotIndexPanic
  else
    if (startingNowOf st).isEmpty && st.started.isEmpty then
      .next { st with currentSlot := st.currentSlot + 1 }
    else
      match admission_phase (startingNowOf st)
          { freeRooms := (releasePhase st.currentSlot st.freeRooms st.started st.activities).1,
            scheduled := st.scheduled, unscheduled := st.unscheduled,
            started :=
              (releasePhase st.currentSlot st.freeRooms st.started st.activities).2.1 } with
      | .error e => .fail e
      | .ok adm =>
        .next { activities :=
                  (releasePhase st.currentSlot st.freeRooms st.started st.activities).2.2,
                freeRooms := adm.freeRooms,
                scheduled := adm.scheduled, unscheduled := adm.unscheduled,
                started := adm.started, currentSlot := st.currentSlot + 1 }

/-- Fuel-driven interpreter of the simulation loop.  `none` means the loop
has not reached an exit within `fuel` iterations (the Rust loop would still
be running). -/
def schedLoop : Nat → SchedState → Option (Except SchedErr (List Activity × List Activity))
  | 0, _ => none
  | fuel + 1, st =>
    match loopStep st with
    | .done s u => some (.ok (s, u))
    | .fail e => some (.error e)
    | .next st' => schedLoop fuel st'

/-- `fuel` applications of `loopStep`, as long as the loop keeps running:
the state reached after `fuel` iterations, if the loop neither exits nor
fails before that. -/
def schedIter : Nat → SchedState → Option SchedState
  | 0, st => some st
  | fuel + 1, st =>
    match loopStep st with
    | .next st' => schedIter fuel st'
    | _ => none

/-- The state of `run_scheduler` when the simulation loop is entered. -/
def initState (activities : List Activity) (rooms : List Room) : SchedState :=
  { activities := activities, freeRooms := rooms, scheduled := [],
    unscheduled := [], started := [], currentSlot := 0 }

/-- `run_scheduler`: sort the activities by `students_count`, compute
`max_simultaneus_activities`, fail with the `BadRequest`
(`capacityInfeasible`) when `rooms.len() < max_simultaneus as usize`, and
otherwise run the simulation loop. -/
def run_scheduler (fuel : Nat) (activities : List Activity) (rooms : List Room) :
    Option (Except SchedErr (List Activity × List Activity)) :=
  let sorted := sort_activities activities
  let max_simultaneus := max_simultaneus_activities sorted
  if rooms.length < max_simultaneus then some (.error .capacityInfeasible)
  else schedLoop fuel (initState sorted rooms)

/-- "The Rust `run_scheduler` returns `r`": the loop exits with `r` under
some fuel bound.  (If it does under one bound it does under every larger
one, so this is the denotation of the possibly-diverging Rust function.) -/
def SchedReturns (activities : List Activity) (rooms : List Room)
    (r : Except SchedErr (List Activity × List Activity)) : Prop :=
  ∃ fuel, run_scheduler fuel activities rooms = some r

/-- `time_slots` is non-empty, contiguous and ascending — the §3 data-model
assumption on activities ("a start slot through an end slot inclusive"). -/
def ContigAsc (a : Activity) : Prop :=
  ∃ h n, 0 < n ∧ a.time_slots = List.range' h n

/-- First time slot (the start) of an activity, defaulting to 0. -/
def startOf (a : Activity) : Nat := a.time_slots.head?.getD 0

/-- Last time slot (the end) of an activity, defaulting to 0. -/
def finOf (a : Activity) : Nat := a.time_slots.getLast?.getD 0

/-- Two activities share at least one time-slot value. -/
def Overlap (a b : Activity) : Prop :=
  ∃ t, t ∈ a.time_slots ∧ t ∈ b.time_slots

/-- The spec's `max_concurrent`: the maximum, over all distinct time-slot
values appearing in any activity's `time_slots`, of the number of activities
whose `time_slots` contain that value.  (Definition taken from the
specification's words, to be compared with `max_simultaneus_activities`.) -/
def maxConcurrentSpec (activities : List Activity) : Nat :=
  (((activities.flatMap (fun a => a.time_slots)).dedup).map
    (fun t => (activities.filter (fun a => decide (t ∈ a.time_slots))).length)).foldr max 0

/-- Loop invariant for C1: every scheduled activity has a room of sufficient
capacity. -/
def CapInv (st : SchedState) : Prop :=
  ∀ x ∈ st.scheduled, x.students_count ≤ x.room.capacity

/-- Loop invariant for C7: every activity in `unscheduled` and every pending
activity is an unmodified element of the original request list. -/
def FrameInv (acts0 : List Activity) (st : SchedState) : Prop :=
  (∀ x ∈ st.unscheduled, x ∈ acts0) ∧ (∀ x ∈ st.activities, x ∈ acts0)

/-- Recognizes the two "internal defect" outcomes in a `run_scheduler`
result: the `InternalServerError` of `pop_activity` and the `unwrap` panic
of `get_best_room`. -/
def isInternalRes : Option (Except SchedErr (List Activity × List Activity)) → Bool
  | some (.error .popFailed) => true
  | some (.error .bestRoomPanic) => true
  | _ => false

/-- Same recognizer for the admission loop's own result. -/
def isInternalAdm : Except SchedErr AdmState → Bool
  | .error .popFailed => true
  | .error .bestRoomPanic => true
  | _ => false

/-- Loop invariant for C10: the clock is positive whenever some activity is
started — exactly the guard needed by the `current_time_slot - 1`
subtraction evaluated in the release phase. -/
def SlotInv (st : SchedState) : Prop := st.started ≠ [] → 1 ≤ st.currentSlot

/-- An activity `a` is *stuck* in state `st`: it is still pending, its start
slot (its first time slot) has already passed the clock, no started activity
shares its id (so no release step will ever drag it out of `pending`), every
pending activity sharing its id has likewise passed its start (so none can
reach `started` later and free it by id), and no pending activity has empty
`time_slots` (which would crash the loop instead of spinning it). -/
def StuckAt (a : Activity) (st : SchedState) : Prop :=
  a ∈ st.activities ∧
  (∃ t, a.time_slots.head? = some t ∧ t < st.currentSlot) ∧
  (∀ b ∈ st.started, b.id ≠ a.id) ∧
  (∀ b ∈ st.activities, b.id = a.id →
    ∃ t, b.time_slots.head? = some t ∧ t < st.currentSlot) ∧
  (∀ b ∈ st.activities, b.time_slots ≠ [])

/-- Invariant of the admission loop used for the no-double-booking proof.
`slot` is the current clock value (the release phase has already run). -/
structure AdmInv (slot : Nat) (ast : AdmState) : Prop where
  schedContig : ∀ b ∈ ast.scheduled, ContigAsc b
  schedStart : ∀ b ∈ ast.scheduled, startOf b ≤ slot
  unfinStarted : ∀ b ∈ ast.scheduled, slot ≤ finOf b → b ∈ ast.started
  unfinFree : ∀ b ∈ ast.scheduled, slot ≤ finOf b →
    ∀ r ∈ ast.freeRooms, r.name ≠ b.room.name
  startedSub : ∀ c ∈ ast.started, c ∈ ast.scheduled
  startedFin : ∀ c ∈ ast.started, slot ≤ finOf c
  startedNames : List.Pairwise (fun x y => x.room.name ≠ y.room.name) ast.started
  schedNodup : (ast.scheduled.map (fun a => a.id)).Nodup
  noBook : List.Pairwise (fun x y => Overlap x y → x.room.name ≠ y.room.name) ast.scheduled

/-- Simulation-loop invariant for the no-double-booking theorem, for
requests with unique activity ids and non-empty contiguous ascending
`time_slots` (the §3 data-model assumptions). -/
structure Inv2 (st : SchedState) : Prop where
  pendContig : ∀ a ∈ st.activities, ContigAsc a
  pendNodup : (st.activities.map (fun a => a.id)).Nodup
  schedContig : ∀ b ∈ st.scheduled, ContigAsc b
  startedSub : ∀ c ∈ st.started, c ∈ st.scheduled
  schedStart : ∀ b ∈ st.scheduled, startOf b < st.currentSlot
  startedFin : ∀ c ∈ st.started, st.currentSlot ≤ finOf c + 1
  unfinStarted : ∀ b ∈ st.scheduled, st.currentSlot ≤ finOf b → b ∈ st.started
  unfinFree : ∀ b ∈ st.scheduled, st.currentSlot ≤ finOf b →
    ∀ r ∈ st.freeRooms, r.name ≠ b.room.name
  startedNames : List.Pairwise (fun x y => x.room.name ≠ y.room.name) st.started
  schedNodup : (st.scheduled.map (fun a => a.id)).Nodup
  pendSlots : ∀ a ∈ st.activities, ∀ b ∈ st.scheduled, a.id = b.id →
    a.time_slots = b.time_slots
  noBook : List.Pairwise (fun x y => Overlap x y → x.room.name ≠ y.room.name) st.scheduled

theorem pop_activity_concat (l : List Activity) (a : Activity) :
    pop_activity (l ++ [a]) = some (a, l) := by
  simp [pop_activity, List.getLast?_concat, List.dropLast_concat]

/-- The pop-based transcription and the structural interpreter agree. -/
theorem admissionLoop_eq_phase (batch : List Activity) (st : AdmState) :
    admissionLoop batch st = admission_phase batch st := by
  induction batch using List.reverseRecOn generalizing st with
  | nil => simp [admissionLoop, admission_phase, admissionGo]
  | append_singleton l a ih =>
    have hIH : ∀ st', admissionLoop l st' = admissionGo l.reverse st' := fun st' => ih st'
    rw [admissionLoop, if_neg (by simp)]
    split
    · next heq => rw [pop_activity_concat] at heq; exact absurd heq (by simp)
    · next activity rest heq =>
      rw [pop_activity_concat] at heq
      simp only [Option.some.injEq, Prod.mk.injEq] at heq
      obtain ⟨ha, hr⟩ := heq
      subst ha; subst hr
      show _ = admission_phase (l ++ [a]) st
      simp only [admission_phase, List.reverse_append, List.reverse_cons, List.reverse_nil,
        List.nil_append, List.singleton_append]
      rw [admissionGo]
      by_cases hav :
          (st.freeRooms.filter (fun r => decide (a.students_count ≤ r.capacity))).isEmpty
      · simp only [hav, if_true]
        exact hIH _
      · simp only [hav, Bool.false_eq_true, if_false]
        cases get_best_room a
            (st.freeRooms.filter (fun r => decide (a.students_count ≤ r.capacity))) with
        | none => rfl
        | some best => exact hIH _

/-! ### Best-fit selection (`get_best_room`) -/

/-- `distance` is the absolute difference `|x1 − x0|`. -/
theorem distance_eq_natAbs (x1 x0 : Nat) :
    distance x1 x0 = ((x1 : Int) - (x0 : Int)).natAbs := by
  unfold distance
  split <;> omega

/-- Folding `bestStep` from `some b` yields the first room of `b :: l`
(in encounter order) attaining the minimal distance. -/
theorem bestStep_foldl_spec (activity : Activity) :
    ∀ (l : List Room) (b : Room),
      ∃ r, l.foldl (bestStep activity) (some b) = some r ∧
        (∀ x ∈ l,
          distance r.capacity activity.students_count ≤
            distance x.capacity activity.students_count) ∧
        distance r.capacity activity.students_count ≤
          distance b.capacity activity.students_count ∧
        (r = b ∨ ∃ pre post, l = pre ++ r :: post ∧
          distance r.capacity activity.students_count <
            distance b.capacity activity.students_count ∧
          ∀ y ∈ pre,
            distance r.capacity activity.students_count <
              distance y.capacity activity.students_count) := by
  intro l
  induction l with
  | nil =>
    intro b
    exact ⟨b, rfl, by simp, le_refl _, Or.inl rfl⟩
  | cons x l ih =>
    intro b
    by_cases hlt : distance x.capacity activity.students_count <
        distance b.capacity activity.students_count
    · have hstep : bestStep activity (some b) x = some x := by
        simp [bestStep, hlt]
      obtain ⟨r, hfold, hmin, hrb, hsplit⟩ := ih x
      refine ⟨r, ?_, ?_, ?_, ?_⟩
      · simpa [List.foldl_cons, hstep] using hfold
      · intro y hy
        rcases List.mem_cons.mp hy with rfl | hy
        · exact hrb
        · exact hmin y hy
      · exact le_trans hrb (le_of_lt hlt)
      · rcases hsplit with rfl | ⟨pre, post, hl, hrx, hpre⟩
        · exact Or.inr ⟨[], l, by simp, hlt, by simp⟩
        · refine Or.inr ⟨x :: pre, post, by simp [hl], lt_trans hrx hlt, ?_⟩
          intro y hy
          rcases List.mem_cons.mp hy with rfl | hy
          · exact hrx
          · exact hpre y hy
    · have hstep : bestStep activity (some b) x = some b := by
        simp [bestStep, hlt]
      have hbx : distance b.capacity activity.students_count ≤
          distance x.capacity activity.students_count := le_of_not_lt hlt
      obtain ⟨r, hfold, hmin, hrb, hsplit⟩ := ih b
      refine ⟨r, ?_, ?_, hrb, ?_⟩
      · simpa [List.foldl_cons, hstep] using hfold
      · intro y hy
        rcases List.mem_cons.mp hy with rfl | hy
        · exact le_trans hrb hbx
        · exact hmin y hy
      · rcases hsplit with rfl | ⟨pre, post, hl, hrx, hpre⟩
        · exact Or.inl rfl
        · refine Or.inr ⟨x :: pre, post, by simp [hl], hrx, ?_⟩
          intro y hy
          rcases List.mem_cons.mp hy with rfl | hy
          · exact lt_of_lt_of_le hrx hbx
          · exact hpre y hy

/-- `get_best_room` on a non-empty candidate list returns the first room
attaining the minimal distance. -/
theorem get_best_room_spec (activity : Activity) (rooms : List Room)
    (hne : rooms ≠ []) :
    ∃ r pre post, get_best_room activity rooms = some r ∧
      rooms = pre ++ r :: post ∧
      (∀ x ∈ rooms,
        distance r.capacity activity.students_count ≤
          distance x.capacity activity.students_count) ∧
      (∀ y ∈ pre,
        distance r.capacity activity.students_count <
          distance y.capacity activity.students_count) := by
  cases rooms with
  | nil => exact absurd rfl hne
  | cons b l =>
    obtain ⟨r, hfold, hmin, hrb, hsplit⟩ := bestStep_foldl_spec activity l b
    have hgbr : get_best_room activity (b :: l) = some r := by
      simpa [get_best_room, List.foldl_cons, bestStep] using hfold
    rcases hsplit with rfl | ⟨pre, post, hl, hrlt, hpre⟩
    · refine ⟨r, [], l, hgbr, by simp, ?_, by simp⟩
      intro x hx
      rcases List.mem_cons.mp hx with rfl | hx
      · exact le_refl _
      · exact hmin x hx
    · refine ⟨r, b :: pre, post, hgbr, by simp [hl], ?_, ?_⟩
      · intro x hx
        rcases List.mem_cons.mp hx with rfl | hx
        · exact hrb
        · exact hmin x hx
      · intro y hy
        rcases List.mem_cons.mp hy with rfl | hy
        · exact hrlt
        · exact hpre y hy

/-- `get_best_room` always succeeds on a non-empty candidate list (so the
`unwrap` cannot fire when the caller has checked non-emptiness). -/
theorem get_best_room_isSome (activity : Activity) (rooms : List Room)
    (hne : rooms ≠ []) : ∃ r, get_best_room activity rooms = some r := by
  obtain ⟨r, _, _, h, _⟩ := get_best_room_spec activity rooms hne
  exact ⟨r, h⟩

/-- A room selected by `get_best_room` comes from the candidate list. -/
theorem get_best_room_mem {activity : Activity} {rooms : List Room} {r : Room}
    (h : get_best_room activity rooms = some r) : r ∈ rooms := by
  cases hr : rooms with
  | nil => rw [hr] at h; exact absurd h (by simp [get_best_room])
  | cons b l =>
    obtain ⟨r', pre, post, hsome, hsplit, _, _⟩ :=
      get_best_room_spec activity (b :: l) (by simp)
    rw [hr] at h
    rw [hsome] at h
    injection h with h
    subst h
    rw [hsplit]
    simp

/-- Claim C5 — best-fit selection.  For every activity and every non-empty
candidate list of rooms whose capacity is at least the activity's
`students_count`, `get_best_room` selects a room minimizing the absolute
capacity distance `|room.capacity − activity.students_count|`, and among the
rooms attaining the minimum the first one in encounter order is chosen
(every earlier candidate has strictly greater distance). -/
theorem best_fit_first_min (activity : Activity) (rooms : List Room)
    (hne : rooms ≠ [])
    (hcap : ∀ x ∈ rooms, activity.students_count ≤ x.capacity) :
    ∃ r pre post, get_best_room activity rooms = some r ∧
      rooms = pre ++ r :: post ∧
      (∀ x ∈ rooms,
        ((r.capacity : Int) - (activity.students_count : Int)).natAbs ≤
          ((x.capacity : Int) - (activity.students_count : Int)).natAbs) ∧
      (∀ y ∈ pre,
        ((r.capacity : Int) - (activity.students_count : Int)).natAbs <
          ((y.capacity : Int) - (activity.students_count : Int)).natAbs) := by
  obtain ⟨r, pre, post, hsome, hsplit, hmin, hpre⟩ :=
    get_best_room_spec activity rooms hne
  refine ⟨r, pre, post, hsome, hsplit, ?_, ?_⟩
  · intro x hx
    have := hmin x hx
    rwa [distance_eq_natAbs, distance_eq_natAbs] at this
  · intro y hy
    have := hpre y hy
    rwa [distance_eq_natAbs, distance_eq_natAbs] at this

/-- Witness for `best_fit_first_min`: two rooms of capacities 10 and 9 for 8
students; both fit, the second is strictly closer, and it is selected. -/
theorem best_fit_first_min_witness :
    ∃ r pre post,
      get_best_room ⟨1, "w", ⟨"", 0⟩, [0], 8⟩ [⟨"x", 10⟩, ⟨"y", 9⟩] = some r ∧
      [(⟨"x", 10⟩ : Room), ⟨"y", 9⟩] = pre ++ r :: post ∧
      (∀ x ∈ [(⟨"x", 10⟩ : Room), ⟨"y", 9⟩],
        ((r.capacity : Int) - ((8 : Nat) : Int)).natAbs ≤
          ((x.capacity : Int) - ((8 : Nat) : Int)).natAbs) ∧
      (∀ y ∈ pre,
        ((r.capacity : Int) - ((8 : Nat) : Int)).natAbs <
          ((y.capacity : Int) - ((8 : Nat) : Int)).natAbs) :=
  best_fit_first_min ⟨1, "w", ⟨"", 0⟩, [0], 8⟩ [⟨"x", 10⟩, ⟨"y", 9⟩]
    (by simp) (by decide)

/-! ### Ordering (`sort_activities`) -/

theorem insertByCount_perm (a : Activity) (l : List Activity) :
    (insertByCount a l).Perm (a :: l) := by
  induction l with
  | nil => simp [insertByCount]
  | cons b l ih =>
    unfold insertByCount
    split
    · exact (List.Perm.cons b ih).trans (List.Perm.swap a b l)
    · exact List.Perm.refl _

theorem sort_activities_perm (l : List Activity) : (sort_activities l).Perm l := by
  induction l with
  | nil => simp [sort_activities]
  | cons a l ih =>
    have : sort_activities (a :: l) = insertByCount a (sort_activities l) := rfl
    rw [this]
    exact (insertByCount_perm a (sort_activities l)).trans (List.Perm.cons a ih)

theorem mem_insertByCount {x a : Activity} {l : List Activity} :
    x ∈ insertByCount a l ↔ x = a ∨ x ∈ l :=
  by simpa using (insertByCount_perm a l).mem_iff

theorem insertByCount_sorted {a : Activity} {l : List Activity}
    (h : List.Pairwise (fun x y => x.students_count ≤ y.students_count) l) :
    List.Pairwise (fun x y => x.students_count ≤ y.students_count) (insertByCount a l) := by
  induction l with
  | nil => simp [insertByCount]
  | cons b l ih =>
    rcases List.pairwise_cons.mp h with ⟨hb, hl⟩
    unfold insertByCount
    split
    · next hba =>
      refine List.pairwise_cons.mpr ⟨?_, ih hl⟩
      intro y hy
      rcases mem_insertByCount.mp hy with rfl | hy
      · exact le_of_lt hba
      · exact hb y hy
    · next hba =>
      have hab : a.students_count ≤ b.students_count := le_of_not_lt hba
      refine List.pairwise_cons.mpr ⟨?_, h⟩
      intro y hy
      rcases List.mem_cons.mp hy with rfl | hy
      · exact hab
      · exact le_trans hab (hb y hy)

theorem sort_activities_sorted (l : List Activity) :
    List.Pairwise (fun x y => x.students_count ≤ y.students_count) (sort_activities l) := by
  induction l with
  | nil => simp [sort_activities]
  | cons a l ih => exact insertByCount_sorted ih

theorem filter_insertByCount_eq {a : Activity} {c : Nat} (l : List Activity)
    (hc : a.students_count = c) :
    (insertByCount a l).filter (fun x => decide (x.students_count = c)) =
      a :: l.filter (fun x => decide (x.students_count = c)) := by
  induction l with
  | nil => simp [insertByCount, hc]
  | cons b l ih =>
    unfold insertByCount
    split
    · next hba =>
      have hbc : ¬(b.students_count = c) := by omega
      simp only [List.filter_cons]
      rw [if_neg (by simpa using hbc)]
      rw [ih]
      simp [List.filter_cons, hbc]
    · simp [List.filter_cons, hc]

theorem filter_insertByCount_ne {a : Activity} {c : Nat} (l : List Activity)
    (hc : ¬(a.students_count = c)) :
    (insertByCount a l).filter (fun x => decide (x.students_count = c)) =
      l.filter (fun x => decide (x.students_count = c)) := by
  induction l with
  | nil => simp [insertByCount, hc]
  | cons b l ih =>
    unfold insertByCount
    split
    · simp only [List.filter_cons]
      rw [ih]
    · simp [List.filter_cons, hc]

theorem sort_activities_stable (l : List Activity) (c : Nat) :
    (sort_activities l).filter (fun x => decide (x.students_count = c)) =
      l.filter (fun x => decide (x.students_count = c)) := by
  induction l with
  | nil => rfl
  | cons a l ih =>
    have hstep : sort_activities (a :: l) = insertByCount a (sort_activities l) := rfl
    rw [hstep]
    by_cases hc : a.students_count = c
    · rw [filter_insertByCount_eq _ hc, ih]
      simp [List.filter_cons, hc]
    · rw [filter_insertByCount_ne _ hc, ih]
      simp [List.filter_cons, hc]

/-- Claim C6 — ordering.  The processing order produced before the
feasibility check and the simulation (`sort_activities`, applied to the
request's activity list at the top of `run_scheduler`) is ascending by
`students_count`, is a permutation of the input, and activities with equal
`students_count` keep their relative input order (stable sort). -/
theorem sort_activities_ordering (l : List Activity) :
    List.Pairwise (fun x y => x.students_count ≤ y.students_count) (sort_activities l) ∧
    (sort_activities l).Perm l ∧
    ∀ c, (sort_activities l).filter (fun x => decide (x.students_count = c)) =
      l.filter (fun x => decide (x.students_count = c)) :=
  ⟨sort_activities_sorted l, sort_activities_perm l, fun c => sort_activities_stable l c⟩

/-! ### Feasibility check (`max_simultaneus_activities`) -/

theorem simultaneus_eq_filter_length (t : Nat) (acts : List Activity) :
    simultaneus_activities_in_timeslot t acts =
      (acts.filter (fun a => decide (t ∈ a.time_slots))).length := by
  suffices h : ∀ (l : List Activity) (init : Nat),
      l.foldl (fun count a => if a.time_slots.contains t then count + 1 else count) init =
        init + (l.filter (fun a => decide (t ∈ a.time_slots))).length by
    simpa [simultaneus_activities_in_timeslot] using h acts 0
  intro l
  induction l with
  | nil => simp
  | cons a l ih =>
    intro init
    by_cases hmem : t ∈ a.time_slots
    · have hc : a.time_slots.contains t = true := by simpa using hmem
      have hd : (decide (t ∈ a.time_slots)) = true := by simpa using hmem
      simp only [List.foldl_cons, List.filter_cons, hc, hd, if_true, List.length_cons, ih]
      ring
    · have hc : a.time_slots.contains t = false := by simpa using hmem
      have hd : (decide (t ∈ a.time_slots)) = false := by simpa using hmem
      simp only [List.foldl_cons, List.filter_cons, hc, hd, Bool.false_eq_true, if_false]
      exact ih init

theorem maxSimStep_seen {acts : List Activity} {seen : List Nat} {s : Nat} (m : Nat)
    (hs : seen.contains s = true) : maxSimStep acts (m, seen) s = (m, seen) := by
  have hrfl : maxSimStep acts (m, seen) s =
      if seen.contains s then (m, seen)
      else (max m (simultaneus_activities_in_timeslot s acts), seen ++ [s]) := rfl
  rw [hrfl, hs, if_pos rfl]

theorem maxSimStep_not_seen {acts : List Activity} {seen : List Nat} {s : Nat} (m : Nat)
    (hs : seen.contains s = false) :
    maxSimStep acts (m, seen) s =
      (max m (simultaneus_activities_in_timeslot s acts), seen ++ [s]) := by
  have hrfl : maxSimStep acts (m, seen) s =
      if seen.contains s then (m, seen)
      else (max m (simultaneus_activities_in_timeslot s acts), seen ++ [s]) := rfl
  rw [hrfl, hs, if_neg (by decide)]

theorem maxSimStep_foldl_le (acts : List Activity) :
    ∀ (l : List Nat) (m : Nat) (seen : List Nat),
      m ≤ (l.foldl (maxSimStep acts) (m, seen)).1 := by
  intro l
  induction l with
  | nil => intro m seen; exact le_refl m
  | cons s l ih =>
    intro m seen
    by_cases hs : seen.contains s
    · rw [List.foldl_cons, maxSimStep_seen m hs]
      exact ih m seen
    · rw [List.foldl_cons, maxSimStep_not_seen m (by simpa using hs)]
      exact le_trans (Nat.le_max_left _ _) (ih _ _)

theorem maxSimStep_foldl_upper (acts : List Activity) :
    ∀ (l : List Nat) (m : Nat) (seen : List Nat) (B : Nat),
      m ≤ B →
      (∀ t ∈ l, simultaneus_activities_in_timeslot t acts ≤ B) →
      (l.foldl (maxSimStep acts) (m, seen)).1 ≤ B := by
  intro l
  induction l with
  | nil => intro m seen B hm _; exact hm
  | cons s l ih =>
    intro m seen B hm hl
    by_cases hs : seen.contains s
    · rw [List.foldl_cons, maxSimStep_seen m hs]
      exact ih m seen B hm (fun t ht => hl t (List.mem_cons_of_mem s ht))
    · rw [List.foldl_cons, maxSimStep_not_seen m (by simpa using hs)]
      refine ih _ _ B ?_ (fun t ht => hl t (List.mem_cons_of_mem s ht))
      exact max_le hm (hl s (List.mem_cons_self s l))

theorem maxSimStep_foldl_lower (acts : List Activity) :
    ∀ (l : List Nat) (m : Nat) (seen : List Nat),
      (∀ t ∈ seen, simultaneus_activities_in_timeslot t acts ≤ m) →
      ∀ t ∈ l, simultaneus_activities_in_timeslot t acts ≤
        (l.foldl (maxSimStep acts) (m, seen)).1 := by
  intro l
  induction l with
  | nil => intro m seen _ t ht; exact absurd ht (List.not_mem_nil t)
  | cons s l ih =>
    intro m seen hseen t ht
    by_cases hs : seen.contains s
    · rw [List.foldl_cons, maxSimStep_seen m hs]
      rcases List.mem_cons.mp ht with rfl | ht
      · have hts : t ∈ seen := by simpa using hs
        exact le_trans (hseen t hts) (maxSimStep_foldl_le acts l m seen)
      · exact ih m seen hseen t ht
    · rw [List.foldl_cons, maxSimStep_not_seen m (by simpa using hs)]
      have hseen' : ∀ u ∈ seen ++ [s],
          simultaneus_activities_in_timeslot u acts ≤
            max m (simultaneus_activities_in_timeslot s acts) := by
        intro u hu
        rcases List.mem_append.mp hu with hu | hu
        · exact le_trans (hseen u hu) (Nat.le_max_left _ _)
        · rcases List.mem_singleton.mp hu with rfl
          exact Nat.le_max_right _ _
      rcases List.mem_cons.mp ht with rfl | ht
      · exact le_trans (Nat.le_max_right m _) (maxSimStep_foldl_le acts l _ _)
      · exact ih _ _ hseen' t ht

theorem le_foldr_max {x : Nat} {l : List Nat} (h : x ∈ l) : x ≤ l.foldr max 0 := by
  induction l with
  | nil => exact absurd h (List.not_mem_nil x)
  | cons y l ih =>
    rcases List.mem_cons.mp h with rfl | h
    · exact Nat.le_max_left _ _
    · exact le_trans (ih h) (Nat.le_max_right _ _)

theorem foldr_max_le {l : List Nat} {B : Nat} (h : ∀ x ∈ l, x ≤ B) : l.foldr max 0 ≤ B := by
  induction l with
  | nil => exact Nat.zero_le B
  | cons y l ih =>
    exact max_le (h y (List.mem_cons_self y l)) (ih (fun x hx => h x (List.mem_cons_of_mem y hx)))

/-- `max_simultaneus_activities`, run (as `run_scheduler` does) on any
permutation of the request's activities, computes exactly the spec's
`max_concurrent`: the maximum over all distinct time-slot values of the
number of activities containing that value. -/
theorem max_simultaneus_eq_spec (acts sorted : List Activity) (hperm : sorted.Perm acts) :
    max_simultaneus_activities sorted = maxConcurrentSpec acts := by
  have hcnt : ∀ t, simultaneus_activities_in_timeslot t sorted =
      (acts.filter (fun a => decide (t ∈ a.time_slots))).length := by
    intro t
    rw [simultaneus_eq_filter_length]
    exact (hperm.filter _).length_eq
  have hmemflat : ∀ t, t ∈ sorted.flatMap (fun a => a.time_slots) ↔
      t ∈ acts.flatMap (fun a => a.time_slots) := by
    intro t
    simp only [List.mem_flatMap]
    constructor
    · rintro ⟨a, ha, hta⟩; exact ⟨a, hperm.mem_iff.mp ha, hta⟩
    · rintro ⟨a, ha, hta⟩; exact ⟨a, hperm.mem_iff.mpr ha, hta⟩
  apply le_antisymm
  · unfold max_simultaneus_activities
    refine maxSimStep_foldl_upper sorted _ 0 [] _ (Nat.zero_le _) ?_
    intro t ht
    rw [hcnt t]
    refine le_foldr_max ?_
    refine List.mem_map.mpr ⟨t, ?_, rfl⟩
    exact List.mem_dedup.mpr ((hmemflat t).mp ht)
  · unfold maxConcurrentSpec
    refine foldr_max_le ?_
    intro x hx
    rcases List.mem_map.mp hx with ⟨t, ht, rfl⟩
    have ht' : t ∈ sorted.flatMap (fun a => a.time_slots) :=
      (hmemflat t).mpr (List.mem_dedup.mp ht)
    have := maxSimStep_foldl_lower sorted (sorted.flatMap (fun a => a.time_slots)) 0 []
      (by intro u hu; exact absurd hu (List.not_mem_nil u)) t ht'
    rw [hcnt t] at this
    exact this

/-- Claim C3 — feasibility gate.  `run_scheduler` computes `max_concurrent`
exactly as the spec describes (maximum over distinct time-slot values of the
number of activities containing that value); when the number of rooms is
strictly below it the call returns `capacityInfeasible` immediately — for
every fuel bound, so before the simulation assigns anything and with no
other output — and otherwise it enters the simulation loop. -/
theorem feasibility_gate (acts : List Activity) (rooms : List Room) (fuel : Nat) :
    max_simultaneus_activities (sort_activities acts) = maxConcurrentSpec acts ∧
    (rooms.length < maxConcurrentSpec acts →
      run_scheduler fuel acts rooms = some (.error .capacityInfeasible)) ∧
    (maxConcurrentSpec acts ≤ rooms.length →
      run_scheduler fuel acts rooms =
        schedLoop fuel (initState (sort_activities acts) rooms)) := by
  have heq : max_simultaneus_activities (sort_activities acts) = maxConcurrentSpec acts :=
    max_simultaneus_eq_spec acts _ (sort_activities_perm acts)
  refine ⟨heq, ?_, ?_⟩
  · intro hlt
    unfold run_scheduler
    rw [if_pos (by rw [heq]; exact hlt)]
  · intro hge
    unfold run_scheduler
    rw [if_neg (by rw [heq]; omega)]

/-- Witness for `feasibility_gate`: one activity at slot 0 and no rooms is
infeasible (`max_concurrent = 1 > 0` rooms), and `run_scheduler` reports it. -/
theorem feasibility_gate_witness :
    run_scheduler 1 [⟨1, "a", ⟨"", 0⟩, [0], 1⟩] [] = some (.error .capacityInfeasible) :=
  (feasibility_gate [⟨1, "a", ⟨"", 0⟩, [0], 1⟩] [] 1).2.1 (by decide)

/-! ### Scenario D (empty room list) -/

/-- Claim C8, corrected.  With an empty room list, a non-empty activity list
*containing at least one activity with a non-empty `time_slots`* makes
`run_scheduler` return `capacityInfeasible` (for every fuel bound).  The
extra condition is forced by `scenario_d_counterexample` below: when every
activity has empty `time_slots`, `max_simultaneus_activities` is 0, the
feasibility comparison `0 < 0` fails, and the simulation is entered instead
of rejecting the request. -/
theorem scenario_d (acts : List Activity) (fuel : Nat) (hne : acts ≠ [])
    (hslots : ∃ a ∈ acts, a.time_slots ≠ []) :
    run_scheduler fuel acts [] = some (.error .capacityInfeasible) := by
  obtain ⟨a, ha, hts⟩ := hslots
  obtain ⟨t, hta⟩ : ∃ t, t ∈ a.time_slots := by
    cases h : a.time_slots with
    | nil => exact absurd h hts
    | cons u l => exact ⟨u, h ▸ List.mem_cons_self u l⟩
  have hsortmem : a ∈ sort_activities acts := (sort_activities_perm acts).mem_iff.mpr ha
  have hflat : t ∈ (sort_activities acts).flatMap (fun x => x.time_slots) :=
    List.mem_flatMap.mpr ⟨a, hsortmem, hta⟩
  have hcnt : 1 ≤ simultaneus_activities_in_timeslot t (sort_activities acts) := by
    rw [simultaneus_eq_filter_length]
    have : a ∈ (sort_activities acts).filter (fun x => decide (t ∈ x.time_slots)) :=
      List.mem_filter.mpr ⟨hsortmem, by simpa using hta⟩
    exact List.length_pos.mpr (List.ne_nil_of_mem this)
  have hmax : 1 ≤ max_simultaneus_activities (sort_activities acts) := by
    refine le_trans hcnt ?_
    exact maxSimStep_foldl_lower (sort_activities acts) _ 0 []
      (by intro u hu; exact absurd hu (List.not_mem_nil u)) t hflat
  unfold run_scheduler
  rw [if_pos (by simpa using hmax)]

/-- Witness for `scenario_d`: one activity at slot 0, no rooms. -/
theorem scenario_d_witness :
    run_scheduler 0 [⟨1, "a", ⟨"", 0⟩, [0], 1⟩] [] = some (.error .capacityInfeasible) :=
  scenario_d [⟨1, "a", ⟨"", 0⟩, [0], 1⟩] 0 (by simp)
    ⟨⟨1, "a", ⟨"", 0⟩, [0], 1⟩, by simp, by simp⟩

/-- Counterexample to claim C8 as stated: with a non-empty activity list
whose single activity has empty `time_slots` and an empty room list,
`run_scheduler` never returns `capacityInfeasible` — the feasibility gate
computes `max_concurrent = 0`, lets the request through, and the simulation
then hits the `time_slots[0]` panic. -/
theorem scenario_d_counterexample :
    ¬ SchedReturns [⟨1, "e", ⟨"", 0⟩, [], 0⟩] [] (.error .capacityInfeasible) := by
  rintro ⟨fuel, h⟩
  cases fuel with
  | zero =>
    have h0 : run_scheduler 0 [⟨1, "e", ⟨"", 0⟩, [], 0⟩] [] = none := rfl
    rw [h0] at h
    exact Option.noConfusion h
  | succ n =>
    have h1 : run_scheduler (n + 1) [⟨1, "e", ⟨"", 0⟩, [], 0⟩] [] =
        some (.error .slotIndexPanic) := rfl
    rw [h1] at h
    have : SchedErr.slotIndexPanic = SchedErr.capacityInfeasible := by
      injection h with h'
      injection h'
    exact SchedErr.noConfusion this

/-! ### Generic facts about the simulation loop -/

theorem loopStep_done_elim {st : SchedState} {s u : List Activity}
    (h : loopStep st = .done s u) :
    st.activities = [] ∧ s = st.scheduled ∧ u = st.unscheduled := by
  unfold loopStep at h
  by_cases h1 : st.activities.isEmpty
  · rw [if_pos h1] at h
    injection h with hs hu
    exact ⟨List.isEmpty_iff.mp h1, hs.symm, hu.symm⟩
  · rw [if_neg h1] at h
    by_cases h2 : st.activities.any (fun a => a.time_slots.isEmpty)
    · rw [if_pos h2] at h; exact absurd h (by simp)
    · rw [if_neg h2] at h
      by_cases h3 : (startingNowOf st).isEmpty && st.started.isEmpty
      · rw [if_pos h3] at h; exact absurd h (by simp)
      · rw [if_neg h3] at h
        cases hadm : admission_phase (startingNowOf st)
            { freeRooms := (releasePhase st.currentSlot st.freeRooms st.started st.activities).1,
              scheduled := st.scheduled, unscheduled := st.unscheduled,
              started := (releasePhase st.currentSlot st.freeRooms st.started st.activities).2.1 } with
        | error e => rw [hadm] at h; exact absurd h (by simp)
        | ok adm => rw [hadm] at h; exact absurd h (by simp)

theorem loopStep_next_elim {st st' : SchedState} (h : loopStep st = .next st') :
    st.activities ≠ [] ∧
    (¬ st.activities.any (fun a => a.time_slots.isEmpty)) ∧
    ((startingNowOf st = [] ∧ st.started = [] ∧
        st' = { st with currentSlot := st.currentSlot + 1 }) ∨
      (∃ adm,
        admission_phase (startingNowOf st)
          { freeRooms := (releasePhase st.currentSlot st.freeRooms st.started st.activities).1,
            scheduled := st.scheduled, unscheduled := st.unscheduled,
            started :=
              (releasePhase st.currentSlot st.freeRooms st.started st.activities).2.1 } =
            .ok adm ∧
        st' = { activities :=
                  (releasePhase st.currentSlot st.freeRooms st.started st.activities).2.2,
                freeRooms := adm.freeRooms, scheduled := adm.scheduled,
                unscheduled := adm.unscheduled, started := adm.started,
                currentSlot := st.currentSlot + 1 })) := by
  unfold loopStep at h
  by_cases h1 : st.activities.isEmpty
  · rw [if_pos h1] at h; exact absurd h (by simp)
  · rw [if_neg h1] at h
    by_cases h2 : st.activities.any (fun a => a.time_slots.isEmpty)
    · rw [if_pos h2] at h; exact absurd h (by simp)
    · rw [if_neg h2] at h
      refine ⟨by simpa using h1, h2, ?_⟩
      by_cases h3 : (startingNowOf st).isEmpty && st.started.isEmpty
      · rw [if_pos h3] at h
        injection h with h'
        rcases Bool.and_eq_true_iff.mp h3 with ⟨ha, hb⟩
        exact Or.inl ⟨List.isEmpty_iff.mp ha, List.isEmpty_iff.mp hb, h'.symm⟩
      · rw [if_neg h3] at h
        cases hadm : admission_phase (startingNowOf st)
            { freeRooms := (releasePhase st.currentSlot st.freeRooms st.started st.activities).1,
              scheduled := st.scheduled, unscheduled := st.unscheduled,
              started := (releasePhase st.currentSlot st.freeRooms st.started st.activities).2.1 } with
        | error e => rw [hadm] at h; exact absurd h (by simp)
        | ok adm =>
          rw [hadm] at h
          injection h with h'
          exact Or.inr ⟨adm, rfl, h'.symm⟩

/-- Induction principle: a property preserved by `loopStep` holds at the
final state of every successful run. -/
theorem schedLoop_ok_elim (P : SchedState → Prop)
    (hstep : ∀ st st', loopStep st = .next st' → P st → P st') :
    ∀ (n : Nat) (st : SchedState) (s u : List Activity),
      schedLoop n st = some (.ok (s, u)) → P st →
      ∃ stf, P stf ∧ stf.activities = [] ∧ s = stf.scheduled ∧ u = stf.unscheduled := by
  intro n
  induction n with
  | zero => intro st s u h _; exact absurd h (by simp [schedLoop])
  | succ n ih =>
    intro st s u h hP
    rw [schedLoop] at h
    cases hstep' : loopStep st with
    | done s' u' =>
      rw [hstep'] at h
      injection h with h'
      injection h' with h''
      injection h'' with h1 h2
      obtain ⟨hnil, hs, hu⟩ := loopStep_done_elim hstep'
      exact ⟨st, hP, hnil, h1 ▸ hs, h2 ▸ hu⟩
    | fail e =>
      rw [hstep'] at h
      injection h with h'
      exact absurd h' (by simp)
    | next st' =>
      rw [hstep'] at h
      exact ih st' s u h (hstep st st' hstep' hP)

/-- A property preserved by `loopStep` transfers along `schedIter`. -/
theorem schedIter_inv (P : SchedState → Prop)
    (hstep : ∀ st st', loopStep st = .next st' → P st → P st') :
    ∀ (n : Nat) (st st' : SchedState), schedIter n st = some st' → P st → P st' := by
  intro n
  induction n with
  | zero =>
    intro st st' h hP
    rw [schedIter] at h
    injection h with h'
    exact h' ▸ hP
  | succ n ih =>
    intro st st' h hP
    rw [schedIter] at h
    cases hstep' : loopStep st with
    | done s u => rw [hstep'] at h; exact absurd h (by simp)
    | fail e => rw [hstep'] at h; exact absurd h (by simp)
    | next st'' =>
      rw [hstep'] at h
      exact ih st'' st' h (hstep st st'' hstep' hP)

/-- Running `n + m` fuel from a state that takes `n` loop iterations to reach
`st'` is running `m` fuel from `st'`. -/
theorem schedLoop_of_schedIter :
    ∀ (n : Nat) (st st' : SchedState), schedIter n st = some st' →
      ∀ m, schedLoop (n + m) st = schedLoop m st' := by
  intro n
  induction n with
  | zero =>
    intro st st' h m
    rw [schedIter] at h
    injection h with h'
    rw [h', Nat.zero_add]
  | succ n ih =>
    intro st st' h m
    rw [schedIter] at h
    cases hstep' : loopStep st with
    | done s u => rw [hstep'] at h; exact absurd h (by simp)
    | fail e => rw [hstep'] at h; exact absurd h (by simp)
    | next st'' =>
      rw [hstep'] at h
      have : n + 1 + m = (n + m) + 1 := by omega
      rw [this, schedLoop, hstep']
      exact ih st'' st' h m

/-- If the loop is still running after `n` iterations, any fuel bound of at
most `n` is exhausted without a result. -/
theorem schedLoop_none_of_schedIter :
    ∀ (f n : Nat) (st st' : SchedState), schedIter n st = some st' → f ≤ n →
      schedLoop f st = none := by
  intro f
  induction f with
  | zero => intro n st st' _ _; rfl
  | succ f ih =>
    intro n st st' h hle
    obtain ⟨n', rfl⟩ : ∃ n', n = n' + 1 := ⟨n - 1, by omega⟩
    rw [schedIter] at h
    cases hstep' : loopStep st with
    | done s u => rw [hstep'] at h; exact absurd h (by simp)
    | fail e => rw [hstep'] at h; exact absurd h (by simp)
    | next st'' =>
      rw [hstep'] at h
      rw [schedLoop, hstep']
      exact ih n' st'' st' h (by omega)

/-! ### Facts about the admission phase -/

/-- `admissionGo` never fails: the batch is popped only while non-empty and
`get_best_room` is called only on a non-empty candidate list. -/
theorem admissionGo_ok : ∀ (batch : List Activity) (ast : AdmState),
    ∃ adm, admissionGo batch ast = .ok adm := by
  intro batch
  induction batch with
  | nil => intro ast; exact ⟨ast, rfl⟩
  | cons activity rest ih =>
    intro ast
    rw [admissionGo]
    by_cases hav : (ast.freeRooms.filter
        (fun r => decide (activity.students_count ≤ r.capacity))).isEmpty
    · rw [if_pos hav]; exact ih _
    · rw [if_neg hav]
      obtain ⟨best, hbest⟩ := get_best_room_isSome activity
        (ast.freeRooms.filter (fun r => decide (activity.students_count ≤ r.capacity)))
        (by simpa [List.isEmpty_iff] using hav)
      rw [hbest]
      exact ih _

/-- Every activity in the output `scheduled` list of the admission phase is
either an input `scheduled` entry or a batch activity annotated with a room
of sufficient capacity. -/
theorem admissionGo_scheduled_elim :
    ∀ (batch : List Activity) (ast adm : AdmState), admissionGo batch ast = .ok adm →
      ∀ x ∈ adm.scheduled, x ∈ ast.scheduled ∨
        ∃ b ∈ batch, x.id = b.id ∧ x.time_slots = b.time_slots ∧
          x.students_count = b.students_count ∧ x.students_count ≤ x.room.capacity := by
  intro batch
  induction batch with
  | nil =>
    intro ast adm h x hx
    rw [admissionGo] at h
    injection h with h'
    exact Or.inl (h' ▸ hx)
  | cons activity rest ih =>
    intro ast adm h x hx
    rw [admissionGo] at h
    by_cases hav : (ast.freeRooms.filter
        (fun r => decide (activity.students_count ≤ r.capacity))).isEmpty
    · rw [if_pos hav] at h
      rcases ih _ _ h x hx with hsch | ⟨b, hb, hrest⟩
      · exact Or.inl hsch
      · exact Or.inr ⟨b, List.mem_cons_of_mem activity hb, hrest⟩
    · rw [if_neg hav] at h
      cases hbest : get_best_room activity
          (ast.freeRooms.filter (fun r => decide (activity.students_count ≤ r.capacity))) with
      | none => rw [hbest] at h; exact absurd h (by simp)
      | some best =>
        rw [hbest] at h
        rcases ih _ _ h x hx with hsch | ⟨b, hb, hrest⟩
        · rcases List.mem_append.mp hsch with hold | hnew
          · exact Or.inl hold
          · rcases List.mem_singleton.mp hnew with rfl
            refine Or.inr ⟨activity, List.mem_cons_self activity rest, rfl, rfl, rfl, ?_⟩
            have hmem := get_best_room_mem hbest
            have := (List.mem_filter.mp hmem).2
            simpa using this
        · exact Or.inr ⟨b, List.mem_cons_of_mem activity hb, hrest⟩

/-- Every activity in the output `unscheduled` list of the admission phase is
either an input `unscheduled` entry or a batch activity, unchanged. -/
theorem admissionGo_unscheduled_elim :
    ∀ (batch : List Activity) (ast adm : AdmState), admissionGo batch ast = .ok adm →
      ∀ x ∈ adm.unscheduled, x ∈ ast.unscheduled ∨ x ∈ batch := by
  intro batch
  induction batch with
  | nil =>
    intro ast adm h x hx
    rw [admissionGo] at h
    injection h with h'
    exact Or.inl (h' ▸ hx)
  | cons activity rest ih =>
    intro ast adm h x hx
    rw [admissionGo] at h
    by_cases hav : (ast.freeRooms.filter
        (fun r => decide (activity.students_count ≤ r.capacity))).isEmpty
    · rw [if_pos hav] at h
      rcases ih _ _ h x hx with hun | hb
      · rcases List.mem_append.mp hun with hold | hnew
        · exact Or.inl hold
        · have hx' := List.mem_singleton.mp hnew
          exact Or.inr (by rw [hx']; exact List.mem_cons_self activity rest)
      · exact Or.inr (List.mem_cons_of_mem activity hb)
    · rw [if_neg hav] at h
      cases hbest : get_best_room activity
          (ast.freeRooms.filter (fun r => decide (activity.students_count ≤ r.capacity))) with
      | none => rw [hbest] at h; exact absurd h (by simp)
      | some best =>
        rw [hbest] at h
        rcases ih _ _ h x hx with hun | hb
        · exact Or.inl hun
        · exact Or.inr (List.mem_cons_of_mem activity hb)

/-- Every activity in the output `started` list of the admission phase is
either an input `started` entry or a batch activity annotated with a room. -/
theorem admissionGo_started_elim :
    ∀ (batch : List Activity) (ast adm : AdmState), admissionGo batch ast = .ok adm →
      ∀ x ∈ adm.started, x ∈ ast.started ∨
        ∃ b ∈ batch, x.id = b.id ∧ x.time_slots = b.time_slots := by
  intro batch
  induction batch with
  | nil =>
    intro ast adm h x hx
    rw [admissionGo] at h
    injection h with h'
    exact Or.inl (h' ▸ hx)
  | cons activity rest ih =>
    intro ast adm h x hx
    rw [admissionGo] at h
    by_cases hav : (ast.freeRooms.filter
        (fun r => decide (activity.students_count ≤ r.capacity))).isEmpty
    · rw [if_pos hav] at h
      rcases ih _ _ h x hx with hst | ⟨b, hb, hrest⟩
      · exact Or.inl hst
      · exact Or.inr ⟨b, List.mem_cons_of_mem activity hb, hrest⟩
    · rw [if_neg hav] at h
      cases hbest : get_best_room activity
          (ast.freeRooms.filter (fun r => decide (activity.students_count ≤ r.capacity))) with
      | none => rw [hbest] at h; exact absurd h (by simp)
      | some best =>
        rw [hbest] at h
        rcases ih _ _ h x hx with hst | ⟨b, hb, hrest⟩
        · rcases List.mem_append.mp hst with hold | hnew
          · exact Or.inl hold
          · rcases List.mem_singleton.mp hnew with rfl
            exact Or.inr ⟨activity, List.mem_cons_self activity rest, rfl, rfl⟩
        · exact Or.inr ⟨b, List.mem_cons_of_mem activity hb, hrest⟩

/-! ### Facts about the release phase -/

theorem releaseStep_finish {slot : Nat} {acc : List Room × List Activity × List Activity}
    {a : Activity} (h : a.time_slots.getLast? = some (slot - 1)) :
    releaseStep slot acc a =
      (acc.1 ++ [a.room],
       acc.2.1.filter (fun b => b.id != a.id),
       acc.2.2.filter (fun b => b.id != a.id)) := by
  unfold releaseStep
  rw [if_pos (by simp [h])]

theorem releaseStep_skip {slot : Nat} {acc : List Room × List Activity × List Activity}
    {a : Activity} (h : ¬(a.time_slots.getLast? = some (slot - 1))) :
    releaseStep slot acc a = acc := by
  unfold releaseStep
  rw [if_neg (by simpa using h)]

theorem releaseFold_started_sublist (slot : Nat) :
    ∀ (snap : List Activity) (acc : List Room × List Activity × List Activity),
      (snap.foldl (releaseStep slot) acc).2.1.Sublist acc.2.1 := by
  intro snap
  induction snap with
  | nil => intro acc; exact List.Sublist.refl _
  | cons c snap ih =>
    intro acc
    rw [List.foldl_cons]
    by_cases hc : c.time_slots.getLast? = some (slot - 1)
    · rw [releaseStep_finish hc]
      exact (ih _).trans (List.filter_sublist _)
    · rw [releaseStep_skip hc]
      exact ih acc

theorem releaseFold_pending_sublist (slot : Nat) :
    ∀ (snap : List Activity) (acc : List Room × List Activity × List Activity),
      (snap.foldl (releaseStep slot) acc).2.2.Sublist acc.2.2 := by
  intro snap
  induction snap with
  | nil => intro acc; exact List.Sublist.refl _
  | cons c snap ih =>
    intro acc
    rw [List.foldl_cons]
    by_cases hc : c.time_slots.getLast? = some (slot - 1)
    · rw [releaseStep_finish hc]
      exact (ih _).trans (List.filter_sublist _)
    · rw [releaseStep_skip hc]
      exact ih acc

theorem releaseFold_started_elim (slot : Nat) :
    ∀ (snap : List Activity) (acc : List Room × List Activity × List Activity)
      (x : Activity), x ∈ (snap.foldl (releaseStep slot) acc).2.1 →
      x ∈ acc.2.1 ∧ ∀ c ∈ snap, c.time_slots.getLast? = some (slot - 1) → x.id ≠ c.id := by
  intro snap
  induction snap with
  | nil => intro acc x hx; exact ⟨hx, by intro c hc; exact absurd hc (List.not_mem_nil c)⟩
  | cons c snap ih =>
    intro acc x hx
    rw [List.foldl_cons] at hx
    by_cases hc : c.time_slots.getLast? = some (slot - 1)
    · rw [releaseStep_finish hc] at hx
      obtain ⟨hx', hsnap⟩ := ih _ x hx
      have hmem := List.mem_filter.mp hx'
      have hne : x.id ≠ c.id := by simpa using hmem.2
      refine ⟨hmem.1, ?_⟩
      intro c' hc' hfin
      rcases List.mem_cons.mp hc' with rfl | hc'
      · exact hne
      · exact hsnap c' hc' hfin
    · rw [releaseStep_skip hc] at hx
      obtain ⟨hx', hsnap⟩ := ih _ x hx
      refine ⟨hx', ?_⟩
      intro c' hc' hfin
      rcases List.mem_cons.mp hc' with rfl | hc'
      · exact absurd hfin hc
      · exact hsnap c' hc' hfin

theorem releaseFold_pending_keep (slot : Nat) :
    ∀ (snap : List Activity) (acc : List Room × List Activity × List Activity)
      (x : Activity), x ∈ acc.2.2 → (∀ c ∈ snap, c.id ≠ x.id) →
      x ∈ (snap.foldl (releaseStep slot) acc).2.2 := by
  intro snap
  induction snap with
  | nil => intro acc x hx _; exact hx
  | cons c snap ih =>
    intro acc x hx hids
    rw [List.foldl_cons]
    by_cases hc : c.time_slots.getLast? = some (slot - 1)
    · rw [releaseStep_finish hc]
      refine ih _ x ?_ (fun c' hc' => hids c' (List.mem_cons_of_mem c hc'))
      refine List.mem_filter.mpr ⟨hx, ?_⟩
      have := hids c (List.mem_cons_self c snap)
      simpa using fun h => this h.symm
    · rw [releaseStep_skip hc]
      exact ih acc x hx (fun c' hc' => hids c' (List.mem_cons_of_mem c hc'))

theorem releaseFold_started_removed (slot : Nat) :
    ∀ (snap : List Activity) (acc : List Room × List Activity × List Activity)
      (x : Activity), x ∈ acc.2.1 → x ∉ (snap.foldl (releaseStep slot) acc).2.1 →
      ∃ c ∈ snap, c.time_slots.getLast? = some (slot - 1) ∧ c.id = x.id := by
  intro snap
  induction snap with
  | nil => intro acc x hx hnx; exact absurd hx hnx
  | cons c snap ih =>
    intro acc x hx hnx
    rw [List.foldl_cons] at hnx
    by_cases hc : c.time_slots.getLast? = some (slot - 1)
    · rw [releaseStep_finish hc] at hnx
      by_cases hxid : x.id = c.id
      · exact ⟨c, List.mem_cons_self c snap, hc, hxid.symm⟩
      · have hx' : x ∈ (acc.1 ++ [c.room],
            acc.2.1.filter (fun b => b.id != c.id),
            acc.2.2.filter (fun b => b.id != c.id)).2.1 := by
          exact List.mem_filter.mpr ⟨hx, by simpa using hxid⟩
        obtain ⟨c', hc', hfin, hid⟩ := ih _ x hx' hnx
        exact ⟨c', List.mem_cons_of_mem c hc', hfin, hid⟩
    · rw [releaseStep_skip hc] at hnx
      obtain ⟨c', hc', hfin, hid⟩ := ih _ x hx hnx
      exact ⟨c', List.mem_cons_of_mem c hc', hfin, hid⟩

theorem releaseFold_free_elim (slot : Nat) :
    ∀ (snap : List Activity) (acc : List Room × List Activity × List Activity)
      (r : Room), r ∈ (snap.foldl (releaseStep slot) acc).1 →
      r ∈ acc.1 ∨ ∃ c ∈ snap, c.time_slots.getLast? = some (slot - 1) ∧ r = c.room := by
  intro snap
  induction snap with
  | nil => intro acc r hr; exact Or.inl hr
  | cons c snap ih =>
    intro acc r hr
    rw [List.foldl_cons] at hr
    by_cases hc : c.time_slots.getLast? = some (slot - 1)
    · rw [releaseStep_finish hc] at hr
      rcases ih _ r hr with hacc | ⟨c', hc', hfin, hroom⟩
      · rcases List.mem_append.mp hacc with hold | hnew
        · exact Or.inl hold
        · have := List.mem_singleton.mp hnew
          exact Or.inr ⟨c, List.mem_cons_self c snap, hc, this⟩
      · exact Or.inr ⟨c', List.mem_cons_of_mem c hc', hfin, hroom⟩
    · rw [releaseStep_skip hc] at hr
      rcases ih _ r hr with hacc | ⟨c', hc', hfin, hroom⟩
      · exact Or.inl hacc
      · exact Or.inr ⟨c', List.mem_cons_of_mem c hc', hfin, hroom⟩

/-! ### Claim C1 — capacity invariant -/

theorem capInv_step : ∀ st st', loopStep st = .next st' → CapInv st → CapInv st' := by
  intro st st' h hP
  obtain ⟨_, _, hcases⟩ := loopStep_next_elim h
  rcases hcases with ⟨_, _, rfl⟩ | ⟨adm, hadm, rfl⟩
  · exact hP
  · intro x hx
    rcases admissionGo_scheduled_elim _ _ _ hadm x hx with hold | ⟨b, _, _, _, _, hcap⟩
    · exact hP x hold
    · exact hcap

/-- Claim C1 — capacity invariant.  Whenever `run_scheduler` returns `Ok`,
every activity in the scheduled output list has an assigned room whose
capacity is at least the activity's `students_count`. -/
theorem capacity_invariant (acts : List Activity) (rooms : List Room)
    (s u : List Activity) (hrun : SchedReturns acts rooms (.ok (s, u))) :
    ∀ x ∈ s, x.students_count ≤ x.room.capacity := by
  obtain ⟨fuel, hfuel⟩ := hrun
  unfold run_scheduler at hfuel
  by_cases hfeas : rooms.length < max_simultaneus_activities (sort_activities acts)
  · rw [if_pos hfeas] at hfuel
    injection hfuel with h'
    exact absurd h' (by simp)
  · rw [if_neg hfeas] at hfuel
    obtain ⟨stf, hPf, _, hs, _⟩ := schedLoop_ok_elim CapInv capInv_step fuel _ s u hfuel
      (by intro x hx; exact absurd hx (List.not_mem_nil x))
    intro x hx
    exact hPf x (hs ▸ hx)

/-- Witness for `capacity_invariant`: one activity of 5 students at slots
`[0, 1]` and one room of capacity 10; the run succeeds and the invariant
holds on the concrete output. -/
theorem capacity_invariant_witness :
    (⟨1, "a", ⟨"x", 10⟩, [0, 1], 5⟩ : Activity).students_count ≤
      (⟨1, "a", ⟨"x", 10⟩, [0, 1], 5⟩ : Activity).room.capacity :=
  capacity_invariant [⟨1, "a", ⟨"", 0⟩, [0, 1], 5⟩] [⟨"x", 10⟩]
    [⟨1, "a", ⟨"x", 10⟩, [0, 1], 5⟩] [] ⟨4, rfl⟩
    ⟨1, "a", ⟨"x", 10⟩, [0, 1], 5⟩ (List.mem_singleton.mpr rfl)

/-! ### Claim C7 — unscheduled activities are unmodified -/

theorem frameInv_step (acts0 : List Activity) :
    ∀ st st', loopStep st = .next st' → FrameInv acts0 st → FrameInv acts0 st' := by
  intro st st' h hP
  obtain ⟨_, _, hcases⟩ := loopStep_next_elim h
  rcases hcases with ⟨_, _, rfl⟩ | ⟨adm, hadm, rfl⟩
  · exact hP
  · constructor
    · intro x hx
      rcases admissionGo_unscheduled_elim _ _ _ hadm x hx with hold | hbatch
      · exact hP.1 x hold
      · have hx' : x ∈ startingNowOf st := List.mem_reverse.mp hbatch
        have := (List.mem_filter.mp hx').1
        exact hP.2 x this
    · intro x hx
      have hsub := releaseFold_pending_sublist st.currentSlot st.started
        (st.freeRooms, st.started, st.activities)
      exact hP.2 x (hsub.subset hx)

/-- Claim C7 — unscheduled activities are unmodified.  Whenever
`run_scheduler` returns `Ok`, every activity in the unscheduled output list
is an unmodified element of the request's activity list; in particular the
engine has not set a room on it: if all request activities carry the
placeholder (empty) room, so does every unscheduled output activity. -/
theorem unscheduled_unmodified (acts : List Activity) (rooms : List Room)
    (s u : List Activity) (hrun : SchedReturns acts rooms (.ok (s, u))) :
    ∀ x ∈ u, x ∈ acts ∧ ∀ r0 : Room, (∀ a ∈ acts, a.room = r0) → x.room = r0 := by
  obtain ⟨fuel, hfuel⟩ := hrun
  unfold run_scheduler at hfuel
  by_cases hfeas : rooms.length < max_simultaneus_activities (sort_activities acts)
  · rw [if_pos hfeas] at hfuel
    injection hfuel with h'
    exact absurd h' (by simp)
  · rw [if_neg hfeas] at hfuel
    have hinit : FrameInv acts (initState (sort_activities acts) rooms) := by
      constructor
      · intro x hx; exact absurd hx (List.not_mem_nil x)
      · intro x hx; exact (sort_activities_perm acts).mem_iff.mp hx
    obtain ⟨stf, hPf, _, _, hu⟩ := schedLoop_ok_elim (FrameInv acts) (frameInv_step acts)
      fuel _ s u hfuel hinit
    intro x hx
    have hmem : x ∈ acts := hPf.1 x (hu ▸ hx)
    exact ⟨hmem, fun r0 hr0 => hr0 x hmem⟩

/-- Witness for `unscheduled_unmodified`: two activities sharing `id = 7`
(ids are the caller's responsibility); the large one fails admission at slot
0, the finishing small one later drags it out of `pending` by id, so the run
returns `Ok` with a non-empty unscheduled list whose entry is the untouched
input record, placeholder room included. -/
theorem unscheduled_unmodified_witness :
    (⟨7, "a", ⟨"", 0⟩, [0], 10⟩ : Activity) ∈
      [(⟨7, "a", ⟨"", 0⟩, [0], 10⟩ : Activity), ⟨7, "b", ⟨"", 0⟩, [1, 2], 3⟩] ∧
    ∀ r0 : Room,
      (∀ a ∈ [(⟨7, "a", ⟨"", 0⟩, [0], 10⟩ : Activity), ⟨7, "b", ⟨"", 0⟩, [1, 2], 3⟩],
        a.room = r0) → (⟨7, "a", ⟨"", 0⟩, [0], 10⟩ : Activity).room = r0 :=
  unscheduled_unmodified
    [⟨7, "a", ⟨"", 0⟩, [0], 10⟩, ⟨7, "b", ⟨"", 0⟩, [1, 2], 3⟩] [⟨"x", 5⟩]
    [⟨7, "b", ⟨"x", 5⟩, [1, 2], 3⟩] [⟨7, "a", ⟨"", 0⟩, [0], 10⟩] ⟨5, rfl⟩
    ⟨7, "a", ⟨"", 0⟩, [0], 10⟩ (List.mem_singleton.mpr rfl)

/-! ### Claim C9 — internal invariant violations are unreachable -/

theorem loopStep_fail_elim {st : SchedState} {e : SchedErr}
    (h : loopStep st = .fail e) : e = .slotIndexPanic := by
  unfold loopStep at h
  by_cases h1 : st.activities.isEmpty
  · rw [if_pos h1] at h; exact absurd h (by simp)
  · rw [if_neg h1] at h
    by_cases h2 : st.activities.any (fun a => a.time_slots.isEmpty)
    · rw [if_pos h2] at h
      injection h with h'
      exact h'.symm
    · rw [if_neg h2] at h
      by_cases h3 : (startingNowOf st).isEmpty && st.started.isEmpty
      · rw [if_pos h3] at h; exact absurd h (by simp)
      · rw [if_neg h3] at h
        obtain ⟨adm, hadm⟩ := admissionGo_ok (startingNowOf st).reverse
          { freeRooms := (releasePhase st.currentSlot st.freeRooms st.started st.activities).1,
            scheduled := st.scheduled, unscheduled := st.unscheduled,
            started := (releasePhase st.currentSlot st.freeRooms st.started st.activities).2.1 }
        rw [show admission_phase (startingNowOf st)
            { freeRooms := (releasePhase st.currentSlot st.freeRooms st.started st.activities).1,
              scheduled := st.scheduled, unscheduled := st.unscheduled,
              started := (releasePhase st.currentSlot st.freeRooms st.started st.activities).2.1 } =
            .ok adm from hadm] at h
        exact absurd h (by simp)

theorem schedLoop_no_internal : ∀ (fuel : Nat) (st : SchedState),
    isInternalRes (schedLoop fuel st) = false := by
  intro fuel
  induction fuel with
  | zero => intro st; rfl
  | succ n ih =>
    intro st
    rw [schedLoop]
    cases hstep : loopStep st with
    | done s u => rfl
    | fail e => rw [loopStep_fail_elim hstep]; rfl
    | next st' => exact ih st'

/-- Claim C9 — internal invariant violations are unreachable.  The admission
loop (`pop_activity`-based, exactly as in the source) never produces the
`pop_activity` internal error nor the `get_best_room` unwrap panic — the pop
is attempted only while the batch is non-empty, and `get_best_room` is
called only after the caller's emptiness check — and consequently
`run_scheduler` never returns either internal error, for any input and fuel
bound. -/
theorem internal_errors_unreachable :
    (∀ (batch : List Activity) (ast : AdmState),
      isInternalAdm (admissionLoop batch ast) = false) ∧
    (∀ (fuel : Nat) (acts : List Activity) (rooms : List Room),
      isInternalRes (run_scheduler fuel acts rooms) = false) := by
  constructor
  · intro batch ast
    rw [admissionLoop_eq_phase]
    obtain ⟨adm, hadm⟩ := admissionGo_ok batch.reverse ast
    unfold admission_phase
    rw [hadm]
    rfl
  · intro fuel acts rooms
    unfold run_scheduler
    by_cases hfeas : rooms.length < max_simultaneus_activities (sort_activities acts)
    · rw [if_pos hfeas]; rfl
    · rw [if_neg hfeas]
      exact schedLoop_no_internal fuel _

/-! ### Claim C10 — the release-phase subtraction never underflows -/

theorem slotInv_step : ∀ st st', loopStep st = .next st' → SlotInv st → SlotInv st' := by
  intro st st' h hP
  obtain ⟨_, _, hcases⟩ := loopStep_next_elim h
  rcases hcases with ⟨_, hstarted, rfl⟩ | ⟨adm, hadm, rfl⟩
  · intro hne
    exact absurd hstarted hne
  · intro _
    exact Nat.le_add_left 1 st.currentSlot

/-- Claim C10 — release-phase subtraction never underflows.  In every state
the simulation loop can reach (any input, any number of iterations), if
`started_activities` is non-empty — i.e. whenever the release phase actually
evaluates `current_time_slot - 1` — then `current_time_slot ≥ 1`, so the
unsigned subtraction cannot wrap.  Equivalently, `started_activities` is
empty whenever the clock is 0. -/
theorem release_no_underflow (acts : List Activity) (rooms : List Room)
    (n : Nat) (st : SchedState)
    (hreach : schedIter n (initState (sort_activities acts) rooms) = some st)
    (hne : st.started ≠ []) : 1 ≤ st.currentSlot := by
  have hinit : SlotInv (initState (sort_activities acts) rooms) := by
    intro h
    exact absurd rfl h
  exact schedIter_inv SlotInv slotInv_step n _ st hreach hinit hne

/-- Witness for `release_no_underflow`: after one iteration on a one-activity
request the activity is started and the clock is 1. -/
theorem release_no_underflow_witness :
    1 ≤ (SchedState.mk [⟨1, "a", ⟨"", 0⟩, [0, 1], 5⟩] []
      [⟨1, "a", ⟨"x", 10⟩, [0, 1], 5⟩] [] [⟨1, "a", ⟨"x", 10⟩, [0, 1], 5⟩] 1).currentSlot :=
  release_no_underflow [⟨1, "a", ⟨"", 0⟩, [0, 1], 5⟩] [⟨"x", 10⟩] 1 _ rfl (by simp)

/-! ### Claim C4 — non-termination on failed admission -/

theorem stuck_step {a : Activity} {st : SchedState} (h : StuckAt a st) :
    ∃ st', loopStep st = .next st' ∧ StuckAt a st' := by
  obtain ⟨hmem, ⟨t, ht, htlt⟩, hstarted, hsameid, hnonempty⟩ := h
  have h1 : ¬(st.activities.isEmpty = true) := by
    simp [List.isEmpty_iff]
    exact List.ne_nil_of_mem hmem
  have h2 : ¬(st.activities.any (fun b => b.time_slots.isEmpty) = true) := by
    intro hany
    obtain ⟨b, hb, hbe⟩ := List.any_eq_true.mp hany
    exact hnonempty b hb (List.isEmpty_iff.mp hbe)
  by_cases h3 : (startingNowOf st).isEmpty && st.started.isEmpty
  · refine ⟨{ st with currentSlot := st.currentSlot + 1 }, ?_, ?_⟩
    · unfold loopStep
      rw [if_neg h1, if_neg h2, if_pos h3]
    · refine ⟨hmem, ⟨t, ht, by show t < st.currentSlot + 1; omega⟩, hstarted, ?_, hnonempty⟩
      intro b hb hid
      obtain ⟨t', ht', hlt'⟩ := hsameid b hb hid
      exact ⟨t', ht', by show t' < st.currentSlot + 1; omega⟩
  · obtain ⟨adm, hadm⟩ := admissionGo_ok (startingNowOf st).reverse
      { freeRooms := (releasePhase st.currentSlot st.freeRooms st.started st.activities).1,
        scheduled := st.scheduled, unscheduled := st.unscheduled,
        started := (releasePhase st.currentSlot st.freeRooms st.started st.activities).2.1 }
    refine ⟨{ activities :=
                (releasePhase st.currentSlot st.freeRooms st.started st.activities).2.2,
              freeRooms := adm.freeRooms, scheduled := adm.scheduled,
              unscheduled := adm.unscheduled, started := adm.started,
              currentSlot := st.currentSlot + 1 }, ?_, ?_⟩
    · unfold loopStep
      rw [if_neg h1, if_neg h2, if_neg h3]
      rw [show admission_phase (startingNowOf st)
          { freeRooms := (releasePhase st.currentSlot st.freeRooms st.started st.activities).1,
            scheduled := st.scheduled, unscheduled := st.unscheduled,
            started := (releasePhase st.currentSlot st.freeRooms st.started st.activities).2.1 } =
          .ok adm from hadm]
    · have hpendsub : ∀ x,
          x ∈ (releasePhase st.currentSlot st.freeRooms st.started st.activities).2.2 →
          x ∈ st.activities := by
        intro x hx
        exact (releaseFold_pending_sublist st.currentSlot st.started
          (st.freeRooms, st.started, st.activities)).subset hx
      refine ⟨?_, ⟨t, ht, by show t < st.currentSlot + 1; omega⟩, ?_, ?_, ?_⟩
      · exact releaseFold_pending_keep st.currentSlot st.started
          (st.freeRooms, st.started, st.activities) a hmem
          (fun c hc => (hstarted c hc))
      · intro b hb hid
        rcases admissionGo_started_elim _ _ _ hadm b hb with hold | ⟨b0, hb0, hbid, _⟩
        · have hb' := (releaseFold_started_elim st.currentSlot st.started
            (st.freeRooms, st.started, st.activities) b hold).1
          exact hstarted b hb' hid
        · have hb0' : b0 ∈ startingNowOf st := List.mem_reverse.mp hb0
          obtain ⟨hb0mem, hb0head⟩ := List.mem_filter.mp hb0'
          have hb0head' : b0.time_slots.head? = some st.currentSlot := by
            simpa using hb0head
          obtain ⟨t', ht', hlt'⟩ := hsameid b0 hb0mem (by rw [← hbid, hid])
          rw [hb0head'] at ht'
          injection ht' with ht''
          omega
      · intro b hb hid
        obtain ⟨t', ht', hlt'⟩ := hsameid b (hpendsub b hb) hid
        exact ⟨t', ht', by show t' < st.currentSlot + 1; omega⟩
      · intro b hb
        exact hnonempty b (hpendsub b hb)

theorem stuck_no_exit (a : Activity) :
    ∀ (fuel : Nat) (st : SchedState), StuckAt a st → schedLoop fuel st = none := by
  intro fuel
  induction fuel with
  | zero => intro st _; rfl
  | succ n ih =>
    intro st h
    obtain ⟨st', hstep, hstuck'⟩ := stuck_step h
    rw [schedLoop, hstep]
    exact ih st' hstuck'

/-- Claim C4, corrected — non-termination on failed admission, for
activities whose id is not shared.  The claim as stated quantifies over
*every* input with a failed admission, but
`admission_failure_diverges_counterexample` below shows a duplicate-id
request on which the loop terminates anyway: the release phase's
retain-by-id drags the stuck activity out of `pending` when another activity
with the same id finishes.  Amended with exactly the conditions that
counterexample forces (`StuckAt`: ids are unique within a request per §3, so
no started activity and no other still-startable pending activity shares the
stuck activity's id): if the feasibility check passes and at some point of
the run an activity has been appended to `unscheduled` (step 4b) while
remaining in `pending` with its start slot in the past, then it can never
match `starting_now` again, never joins `started`, is never removed from
`pending`, so `pending` never empties and `run_scheduler` never returns, for
any fuel bound: the Rust loop runs forever. -/
theorem admission_failure_diverges (acts : List Activity) (rooms : List Room)
    (n : Nat) (st : SchedState) (a : Activity)
    (hfeas : ¬(rooms.length < max_simultaneus_activities (sort_activities acts)))
    (hreach : schedIter n (initState (sort_activities acts) rooms) = some st)
    (hunsch : a ∈ st.unscheduled)
    (hstuck : StuckAt a st) :
    ∀ fuel, run_scheduler fuel acts rooms = none := by
  intro fuel
  unfold run_scheduler
  rw [if_neg hfeas]
  by_cases hle : fuel ≤ n
  · exact schedLoop_none_of_schedIter fuel n _ st hreach hle
  · have hsplit : fuel = n + (fuel - n) := by omega
    rw [hsplit, schedLoop_of_schedIter n _ st hreach]
    exact stuck_no_exit a (fuel - n) st hstuck

/-- Witness for `admission_failure_diverges`: one activity of 10 students at
slot `[0]`, one room of capacity 5.  The feasibility check passes (1 room ≥ 1
concurrent activity), admission fails at slot 0, the activity is in
`unscheduled` and stuck in `pending`, and the scheduler never returns — here
evaluated at fuel 5. -/
theorem admission_failure_diverges_witness :
    run_scheduler 5 [⟨1, "a", ⟨"", 0⟩, [0], 10⟩] [⟨"x", 5⟩] = none :=
  admission_failure_diverges [⟨1, "a", ⟨"", 0⟩, [0], 10⟩] [⟨"x", 5⟩] 1
    (SchedState.mk [⟨1, "a", ⟨"", 0⟩, [0], 10⟩] [⟨"x", 5⟩] []
      [⟨1, "a", ⟨"", 0⟩, [0], 10⟩] [] 1)
    ⟨1, "a", ⟨"", 0⟩, [0], 10⟩
    (by decide) rfl (by simp)
    ⟨by simp, ⟨0, rfl, by decide⟩,
     by intro b hb; exact absurd hb (List.not_mem_nil b),
     by
      intro b hb hid
      rcases List.mem_singleton.mp hb with rfl
      exact ⟨0, rfl, by decide⟩,
     by
      intro b hb
      rcases List.mem_singleton.mp hb with rfl
      simp⟩
    5

/-- Counterexample to claim C4 as stated.  The request
`[{id 7, slots [0], 10 students}, {id 7, slots [1, 2], 3 students}]` with
the single room `x` of capacity 5 passes the feasibility check (at most one
concurrent activity, first conjunct), and the 10-student activity fails
admission at its start slot 0: after one iteration it sits in `unscheduled`
while still in `pending` (second conjunct — step 4b exactly as the claim
describes).  Yet the loop terminates: when the same-id 3-student activity
finishes at slot 3, the release phase's `retain(|a| a.id != activity.id)`
removes the stuck activity from `pending` as well, and `run_scheduler`
returns `Ok` (third conjunct) — so a failed admission does not make the loop
run forever on every such input. -/
theorem admission_failure_diverges_counterexample :
    max_simultaneus_activities
      (sort_activities [⟨7, "a", ⟨"", 0⟩, [0], 10⟩, ⟨7, "b", ⟨"", 0⟩, [1, 2], 3⟩]) = 1 ∧
    schedIter 1 (initState
        (sort_activities [⟨7, "a", ⟨"", 0⟩, [0], 10⟩, ⟨7, "b", ⟨"", 0⟩, [1, 2], 3⟩])
        [⟨"x", 5⟩]) =
      some ⟨[⟨7, "b", ⟨"", 0⟩, [1, 2], 3⟩, ⟨7, "a", ⟨"", 0⟩, [0], 10⟩], [⟨"x", 5⟩],
        [], [⟨7, "a", ⟨"", 0⟩, [0], 10⟩], [], 1⟩ ∧
    run_scheduler 5 [⟨7, "a", ⟨"", 0⟩, [0], 10⟩, ⟨7, "b", ⟨"", 0⟩, [1, 2], 3⟩]
        [⟨"x", 5⟩] =
      some (.ok ([⟨7, "b", ⟨"x", 5⟩, [1, 2], 3⟩], [⟨7, "a", ⟨"", 0⟩, [0], 10⟩])) :=
  ⟨rfl, rfl, rfl⟩

/-! ### Claim C2 — no double-booking -/

theorem ContigAsc.ne_nil {a : Activity} (h : ContigAsc a) : a.time_slots ≠ [] := by
  obtain ⟨hd, n, hn, hts⟩ := h
  rw [hts]
  obtain ⟨m, rfl⟩ : ∃ m, n = m + 1 := ⟨n - 1, by omega⟩
  rw [List.range'_succ]
  simp

theorem ContigAsc.head_eq {a : Activity} (h : ContigAsc a) :
    a.time_slots.head? = some (startOf a) := by
  obtain ⟨hd, n, hn, hts⟩ := h
  obtain ⟨m, rfl⟩ : ∃ m, n = m + 1 := ⟨n - 1, by omega⟩
  unfold startOf
  rw [hts, List.range'_succ]
  rfl

theorem ContigAsc.last_eq {a : Activity} (h : ContigAsc a) :
    a.time_slots.getLast? = some (finOf a) := by
  obtain ⟨hd, n, hn, hts⟩ := h
  obtain ⟨m, rfl⟩ : ∃ m, n = m + 1 := ⟨n - 1, by omega⟩
  unfold finOf
  rw [hts, List.range'_concat, List.getLast?_concat]
  rfl

theorem ContigAsc.start_le_fin {a : Activity} (h : ContigAsc a) : startOf a ≤ finOf a := by
  obtain ⟨hd, n, hn, hts⟩ := h
  obtain ⟨m, rfl⟩ : ∃ m, n = m + 1 := ⟨n - 1, by omega⟩
  have h1 : startOf a = hd := by
    unfold startOf
    rw [hts, List.range'_succ]
    rfl
  have h2 : finOf a = hd + m := by
    unfold finOf
    rw [hts, List.range'_concat, List.getLast?_concat]
    simp
  omega

theorem ContigAsc.mem_iff {a : Activity} (h : ContigAsc a) {t : Nat} :
    t ∈ a.time_slots ↔ startOf a ≤ t ∧ t ≤ finOf a := by
  obtain ⟨hd, n, hn, hts⟩ := h
  obtain ⟨m, rfl⟩ : ∃ m, n = m + 1 := ⟨n - 1, by omega⟩
  have h1 : startOf a = hd := by
    unfold startOf
    rw [hts, List.range'_succ]
    rfl
  have h2 : finOf a = hd + m := by
    unfold finOf
    rw [hts, List.range'_concat, List.getLast?_concat]
    simp
  rw [hts, h1, h2, List.mem_range'_1]
  omega

theorem ContigAsc.start_eq_of_head {a : Activity} (h : ContigAsc a) {t : Nat}
    (hh : a.time_slots.head? = some t) : startOf a = t := by
  rw [h.head_eq] at hh
  injection hh

theorem ContigAsc.fin_eq_of_last {a : Activity} (h : ContigAsc a) {t : Nat}
    (hl : a.time_slots.getLast? = some t) : finOf a = t := by
  rw [h.last_eq] at hl
  injection hl

theorem admissionGo_inv (slot : Nat) :
    ∀ (batch : List Activity) (ast adm : AdmState),
      admissionGo batch ast = .ok adm →
      AdmInv slot ast →
      (∀ b ∈ batch, ContigAsc b ∧ startOf b = slot) →
      (batch.map (fun a => a.id)).Nodup →
      (∀ b ∈ batch, ∀ x ∈ ast.scheduled, b.id ≠ x.id) →
      AdmInv slot adm := by
  intro batch
  induction batch with
  | nil =>
    intro ast adm h hinv _ _ _
    rw [admissionGo] at h
    injection h with h'
    exact h' ▸ hinv
  | cons activity rest ih =>
    intro ast adm h hinv hbatch hnodup hfresh
    rw [admissionGo] at h
    by_cases hav : (ast.freeRooms.filter
        (fun r => decide (activity.students_count ≤ r.capacity))).isEmpty
    · rw [if_pos hav] at h
      refine ih _ adm h
        ⟨hinv.schedContig, hinv.schedStart, hinv.unfinStarted, hinv.unfinFree,
          hinv.startedSub, hinv.startedFin, hinv.startedNames, hinv.schedNodup,
          hinv.noBook⟩
        (fun b hb => hbatch b (List.mem_cons_of_mem activity hb))
        (by simpa using (List.nodup_cons.mp (by simpa using hnodup)).2)
        (fun b hb => hfresh b (List.mem_cons_of_mem activity hb))
    · rw [if_neg hav] at h
      cases hbest : get_best_room activity
          (ast.freeRooms.filter (fun r => decide (activity.students_count ≤ r.capacity))) with
      | none => rw [hbest] at h; exact absurd h (by simp)
      | some best =>
        rw [hbest] at h
        have hbestmem : best ∈ ast.freeRooms := (List.mem_filter.mp (get_best_room_mem hbest)).1
        obtain ⟨hacontig, hastart⟩ := hbatch activity (List.mem_cons_self activity rest)
        have hbcontig : ContigAsc ({ activity with room := best }) := by
          obtain ⟨hd, n, hn, hts⟩ := hacontig
          exact ⟨hd, n, hn, hts⟩
        have hbstart : startOf ({ activity with room := best }) = slot := hastart
        have hbfin : slot ≤ finOf ({ activity with room := best }) := by
          have := hbcontig.start_le_fin
          omega
        have hfreshact : ∀ x ∈ ast.scheduled, activity.id ≠ x.id :=
          hfresh activity (List.mem_cons_self activity rest)
        -- names of currently started activities are not equal to best's name
        have hstartedbest : ∀ c ∈ ast.started, c.room.name ≠ best.name := by
          intro c hc
          have hcs := hinv.startedSub c hc
          have hcf := hinv.startedFin c hc
          exact fun hn => (hinv.unfinFree c hcs hcf best hbestmem) hn.symm
        refine ih _ adm h ⟨?_, ?_, ?_, ?_, ?_, ?_, ?_, ?_, ?_⟩
          (fun b hb => hbatch b (List.mem_cons_of_mem activity hb))
          (by simpa using (List.nodup_cons.mp (by simpa using hnodup)).2)
          ?_
        -- schedContig
        · intro b hb
          rcases List.mem_append.mp hb with hb | hb
          · exact hinv.schedContig b hb
          · rcases List.mem_singleton.mp hb with rfl
            exact hbcontig
        -- schedStart
        · intro b hb
          rcases List.mem_append.mp hb with hb | hb
          · exact hinv.schedStart b hb
          · rcases List.mem_singleton.mp hb with rfl
            exact le_of_eq hbstart
        -- unfinStarted
        · intro b hb hfin
          rcases List.mem_append.mp hb with hb | hb
          · exact List.mem_append.mpr (Or.inl (hinv.unfinStarted b hb hfin))
          · rcases List.mem_singleton.mp hb with rfl
            exact List.mem_append.mpr (Or.inr (List.mem_singleton.mpr rfl))
        -- unfinFree
        · intro b hb hfin r hr
          have hr' := List.mem_filter.mp hr
          rcases List.mem_append.mp hb with hb | hb
          · exact hinv.unfinFree b hb hfin r hr'.1
          · rcases List.mem_singleton.mp hb with rfl
            intro hn
            have : (r.name != best.name) = true := hr'.2
            rw [hn] at this
            simp at this
        -- startedSub
        · intro c hc
          rcases List.mem_append.mp hc with hc | hc
          · exact List.mem_append.mpr (Or.inl (hinv.startedSub c hc))
          · exact List.mem_append.mpr (Or.inr hc)
        -- startedFin
        · intro c hc
          rcases List.mem_append.mp hc with hc | hc
          · exact hinv.startedFin c hc
          · rcases List.mem_singleton.mp hc with rfl
            exact hbfin
        -- startedNames
        · refine List.pairwise_append.mpr ⟨hinv.startedNames, by simp, ?_⟩
          intro c hc b hb
          rcases List.mem_singleton.mp hb with rfl
          exact hstartedbest c hc
        -- schedNodup
        · rw [List.map_append]
          refine List.nodup_append.mpr ⟨hinv.schedNodup, by simp, ?_⟩
          intro i hi
          simp only [List.map_cons, List.map_nil, List.mem_singleton]
          intro hieq
          rcases List.mem_map.mp hi with ⟨x, hx, rfl⟩
          exact hfreshact x hx (by rw [hieq])
        -- noBook
        · refine List.pairwise_append.mpr ⟨hinv.noBook, by simp, ?_⟩
          intro x hx b hb hover
          rcases List.mem_singleton.mp hb with rfl
          by_cases hfin : slot ≤ finOf x
          · intro hn
            exact (hinv.unfinFree x hx hfin best hbestmem) hn.symm
          · obtain ⟨t, htx, htb⟩ := hover
            have h1 : t ≤ finOf x := ((hinv.schedContig x hx).mem_iff.mp htx).2
            have h2 : startOf ({ activity with room := best }) ≤ t :=
              (hbcontig.mem_iff.mp htb).1
            rw [hbstart] at h2
            omega
        -- fresh ids for the rest of the batch
        · intro b hb x hx
          rcases List.mem_append.mp hx with hx | hx
          · exact hfresh b (List.mem_cons_of_mem activity hb) x hx
          · rcases List.mem_singleton.mp hx with rfl
            have : activity.id ∉ rest.map (fun a => a.id) :=
              (List.nodup_cons.mp (by simpa using hnodup)).1
            intro hbid
            exact this (List.mem_map.mpr ⟨b, hb, hbid⟩)

theorem inv2_step : ∀ st st', loopStep st = .next st' → Inv2 st → Inv2 st' := by
  intro st st' h hI
  obtain ⟨hne, hpanic, hcases⟩ := loopStep_next_elim h
  rcases hcases with ⟨hstart, hstarted, rfl⟩ | ⟨adm, hadm, rfl⟩
  · -- idle tick: nothing starts, nothing is started, only the clock moves
    refine ⟨hI.pendContig, hI.pendNodup, hI.schedContig, hI.startedSub, ?_, ?_, ?_, ?_,
      hI.startedNames, hI.schedNodup, hI.pendSlots, hI.noBook⟩
    · intro b hb
      exact Nat.lt_succ_of_lt (hI.schedStart b hb)
    · intro c hc
      rw [show ({ st with currentSlot := st.currentSlot + 1 } : SchedState).started =
        st.started from rfl, hstarted] at hc
      exact absurd hc (List.not_mem_nil c)
    · intro b hb hfin
      have hfin' : st.currentSlot + 1 ≤ finOf b := hfin
      exact hI.unfinStarted b hb (by omega)
    · intro b hb hfin r hr
      have hfin' : st.currentSlot + 1 ≤ finOf b := hfin
      exact hI.unfinFree b hb (by omega) r hr
  · -- full body: release phase then admission phase, then the clock moves
    have hslotpos : ∀ c ∈ st.started, startOf c < st.currentSlot := fun c hc =>
      hI.schedStart c (hI.startedSub c hc)
    have hstartedContig : ∀ c ∈ st.started, ContigAsc c := fun c hc =>
      hI.schedContig c (hI.startedSub c hc)
    -- post-release started list
    have hS'mem : ∀ c ∈ (releasePhase st.currentSlot st.freeRooms st.started st.activities).2.1,
        c ∈ st.started ∧ st.currentSlot ≤ finOf c := by
      intro c hc
      obtain ⟨hcs, hcnofin⟩ := releaseFold_started_elim st.currentSlot st.started
        (st.freeRooms, st.started, st.activities) c hc
      have hfinne : finOf c ≠ st.currentSlot - 1 := by
        intro hfin
        refine hcnofin c hcs ?_ rfl
        rw [(hstartedContig c hcs).last_eq, hfin]
      have h1 := hI.startedFin c hcs
      have h2 := hslotpos c hcs
      exact ⟨hcs, by omega⟩
    -- the admission phase starts from a state satisfying `AdmInv`
    have hAdmInv : AdmInv st.currentSlot
        { freeRooms := (releasePhase st.currentSlot st.freeRooms st.started st.activities).1,
          scheduled := st.scheduled, unscheduled := st.unscheduled,
          started := (releasePhase st.currentSlot st.freeRooms st.started st.activities).2.1 } := by
      refine ⟨hI.schedContig, ?_, ?_, ?_, ?_, ?_, ?_, hI.schedNodup, hI.noBook⟩
      · intro b hb
        exact le_of_lt (hI.schedStart b hb)
      · -- unfinished scheduled activities survive the release phase
        intro b hb hfin
        have hbs := hI.unfinStarted b hb hfin
        by_cases hbS' :
            b ∈ (releasePhase st.currentSlot st.freeRooms st.started st.activities).2.1
        · exact hbS'
        · obtain ⟨c, hcs, hclast, hcid⟩ := releaseFold_started_removed st.currentSlot
            st.started (st.freeRooms, st.started, st.activities) b hbs hbS'
          have hcb : c = b := List.inj_on_of_nodup_map hI.schedNodup
            (hI.startedSub c hcs) hb hcid
          have hcfin : finOf b = st.currentSlot - 1 := by
            rw [← hcb]
            exact (hstartedContig c hcs).fin_eq_of_last hclast
          have := hslotpos c hcs
          omega
      · -- freed rooms do not clash with unfinished scheduled activities
        intro b hb hfin r hr
        rcases releaseFold_free_elim st.currentSlot st.started
          (st.freeRooms, st.started, st.activities) r hr with hrf | ⟨c, hcs, hclast, rfl⟩
        · exact hI.unfinFree b hb hfin r hrf
        · have hcfin : finOf c = st.currentSlot - 1 :=
            (hstartedContig c hcs).fin_eq_of_last hclast
          have hbs := hI.unfinStarted b hb hfin
          have hslotc := hslotpos c hcs
          have hbc : b ≠ c := by
            intro hbc
            rw [hbc] at hfin
            omega
          have hsym : Symmetric (fun x y : Activity => x.room.name ≠ y.room.name) :=
            fun x y hxy => hxy.symm
          exact (hI.startedNames.forall hsym hcs hbs hbc.symm.symm.symm)
      · intro c hc
        exact hI.startedSub c (hS'mem c hc).1
      · intro c hc
        exact (hS'mem c hc).2
      · exact hI.startedNames.sublist (releaseFold_started_sublist st.currentSlot st.started
          (st.freeRooms, st.started, st.activities))
    -- batch facts
    have hbatchmem : ∀ b ∈ (startingNowOf st).reverse,
        b ∈ st.activities ∧ b.time_slots.head? = some st.currentSlot := by
      intro b hb
      have hb' := List.mem_reverse.mp hb
      obtain ⟨hbm, hbh⟩ := List.mem_filter.mp hb'
      exact ⟨hbm, by simpa using hbh⟩
    have hb1 : ∀ b ∈ (startingNowOf st).reverse, ContigAsc b ∧ startOf b = st.currentSlot := by
      intro b hb
      obtain ⟨hbm, hbh⟩ := hbatchmem b hb
      have hcontig := hI.pendContig b hbm
      exact ⟨hcontig, hcontig.start_eq_of_head hbh⟩
    have hb2 : (((startingNowOf st).reverse).map (fun a => a.id)).Nodup := by
      rw [List.map_reverse, List.nodup_reverse]
      exact hI.pendNodup.sublist ((List.filter_sublist st.activities).map _)
    have hb3 : ∀ b ∈ (startingNowOf st).reverse, ∀ x ∈ st.scheduled, b.id ≠ x.id := by
      intro b hb x hx hid
      obtain ⟨hbm, hbh⟩ := hbatchmem b hb
      have hslots := hI.pendSlots b hbm x hx hid
      have hxstart : startOf x = st.currentSlot := by
        unfold startOf
        rw [← hslots, hbh]
        rfl
      have := hI.schedStart x hx
      omega
    have hadm' : admissionGo (startingNowOf st).reverse
        { freeRooms := (releasePhase st.currentSlot st.freeRooms st.started st.activities).1,
          scheduled := st.scheduled, unscheduled := st.unscheduled,
          started := (releasePhase st.currentSlot st.freeRooms st.started st.activities).2.1 } =
        .ok adm := hadm
    have hAdm : AdmInv st.currentSlot adm :=
      admissionGo_inv st.currentSlot _ _ adm hadm' hAdmInv hb1 hb2 hb3
    -- facts about the new pending list
    have hpendsub : ∀ a,
        a ∈ (releasePhase st.currentSlot st.freeRooms st.started st.activities).2.2 →
        a ∈ st.activities := fun a ha =>
      (releaseFold_pending_sublist st.currentSlot st.started
        (st.freeRooms, st.started, st.activities)).subset ha
    refine ⟨?_, ?_, hAdm.schedContig, hAdm.startedSub, ?_, ?_, ?_, ?_,
      hAdm.startedNames, hAdm.schedNodup, ?_, hAdm.noBook⟩
    · intro a ha
      exact hI.pendContig a (hpendsub a ha)
    · exact hI.pendNodup.sublist ((releaseFold_pending_sublist st.currentSlot st.started
        (st.freeRooms, st.started, st.activities)).map _)
    · intro b hb
      have := hAdm.schedStart b hb
      show startOf b < st.currentSlot + 1
      omega
    · intro c hc
      have := hAdm.startedFin c hc
      show st.currentSlot + 1 ≤ finOf c + 1
      omega
    · intro b hb hfin
      exact hAdm.unfinStarted b hb (by
        show st.currentSlot ≤ finOf b
        have : st.currentSlot + 1 ≤ finOf b := hfin
        omega)
    · intro b hb hfin r hr
      exact hAdm.unfinFree b hb (by
        show st.currentSlot ≤ finOf b
        have : st.currentSlot + 1 ≤ finOf b := hfin
        omega) r hr
    · -- pending activities still agree (by id) with scheduled ones on slots
      intro a ha x hx hid
      have ham : a ∈ st.activities := hpendsub a ha
      rcases admissionGo_scheduled_elim _ _ _ hadm' x hx with hold | ⟨b, hbrev, hxid, hxslots, _, _⟩
      · exact hI.pendSlots a ham x hold hid
      · have hbm := (hbatchmem b hbrev).1
        have hab : a = b := List.inj_on_of_nodup_map hI.pendNodup ham hbm (by
          rw [hid, hxid])
        rw [hab, ← hxslots]

/-- Claim C2, corrected — no double-booking, for well-formed requests.
If the request's activities have pairwise distinct ids and non-empty
contiguous ascending `time_slots` (both §3 data-model assumptions, the
contiguity one forced by `no_double_booking_counterexample` below), then
whenever `run_scheduler` returns `Ok`, any two activities of the scheduled
output list that share a time-slot value are assigned rooms with different
names. -/
theorem no_double_booking (acts : List Activity) (rooms : List Room)
    (s u : List Activity)
    (hids : (acts.map (fun a => a.id)).Nodup)
    (hcontig : ∀ a ∈ acts, ContigAsc a)
    (hrun : SchedReturns acts rooms (.ok (s, u))) :
    List.Pairwise (fun x y => Overlap x y → x.room.name ≠ y.room.name) s := by
  obtain ⟨fuel, hfuel⟩ := hrun
  unfold run_scheduler at hfuel
  by_cases hfeas : rooms.length < max_simultaneus_activities (sort_activities acts)
  · rw [if_pos hfeas] at hfuel
    injection hfuel with h'
    exact absurd h' (by simp)
  · rw [if_neg hfeas] at hfuel
    have hinit : Inv2 (initState (sort_activities acts) rooms) := by
      refine ⟨?_, ?_, ?_, ?_, ?_, ?_, ?_, ?_, ?_, ?_, ?_, ?_⟩
      · intro a ha
        exact hcontig a ((sort_activities_perm acts).mem_iff.mp ha)
      · exact (((sort_activities_perm acts).map (fun a => a.id)).nodup_iff).mpr hids
      · intro b hb; exact absurd hb (List.not_mem_nil b)
      · intro c hc; exact absurd hc (List.not_mem_nil c)
      · intro b hb; exact absurd hb (List.not_mem_nil b)
      · intro c hc; exact absurd hc (List.not_mem_nil c)
      · intro b hb; exact absurd hb (List.not_mem_nil b)
      · intro b hb; exact absurd hb (List.not_mem_nil b)
      · exact List.Pairwise.nil
      · exact List.nodup_nil
      · intro a _ b hb; exact absurd hb (List.not_mem_nil b)
      · exact List.Pairwise.nil
    obtain ⟨stf, hPf, _, hs, _⟩ := schedLoop_ok_elim Inv2 inv2_step fuel _ s u hfuel hinit
    rw [hs]
    exact hPf.noBook

/-- Witness for `no_double_booking`: two activities competing at slot 0 for
two rooms; the run succeeds and the two scheduled activities (which overlap)
end up in rooms with different names. -/
theorem no_double_booking_witness :
    List.Pairwise (fun x y => Overlap x y → x.room.name ≠ y.room.name)
      [(⟨2, "b", ⟨"x", 10⟩, [0], 8⟩ : Activity), ⟨1, "a", ⟨"y", 10⟩, [0], 5⟩] :=
  no_double_booking
    [⟨1, "a", ⟨"", 0⟩, [0], 5⟩, ⟨2, "b", ⟨"", 0⟩, [0], 8⟩]
    [⟨"x", 10⟩, ⟨"y", 10⟩]
    [⟨2, "b", ⟨"x", 10⟩, [0], 8⟩, ⟨1, "a", ⟨"y", 10⟩, [0], 5⟩] []
    (by decide)
    (by
      intro a ha
      rcases List.mem_cons.mp ha with rfl | ha
      · exact ⟨0, 1, Nat.one_pos, rfl⟩
      · rcases List.mem_singleton.mp ha with rfl
        exact ⟨0, 1, Nat.one_pos, rfl⟩)
    ⟨3, rfl⟩

/-- Counterexample to claim C2 as stated (without the §3 well-formedness
assumptions).  The first activity's `time_slots` `[1, 7, 2]` is not
contiguous: the engine holds its room only during slots 1–2 (release checks
only the *last* slot), yet the list also mentions slot 7.  The second
activity runs at slots 7–8, shares the value 7 with the first, and is placed
in the very same room `"x"` — and the run still returns `Ok`.  So two
distinct scheduled activities share a time slot and a room name. -/
theorem no_double_booking_counterexample :
    SchedReturns [⟨1, "a", ⟨"", 0⟩, [1, 7, 2], 5⟩, ⟨2, "b", ⟨"", 0⟩, [7, 8], 5⟩]
      [⟨"x", 10⟩, ⟨"y", 20⟩]
      (.ok ([⟨1, "a", ⟨"x", 10⟩, [1, 7, 2], 5⟩, ⟨2, "b", ⟨"x", 10⟩, [7, 8], 5⟩], [])) ∧
    (⟨1, "a", ⟨"x", 10⟩, [1, 7, 2], 5⟩ : Activity) ≠ ⟨2, "b", ⟨"x", 10⟩, [7, 8], 5⟩ ∧
    (7 ∈ ([1, 7, 2] : List Nat) ∧ 7 ∈ ([7, 8] : List Nat)) ∧
    (Room.name ⟨"x", 10⟩ = Room.name ⟨"x", 10⟩) :=
  ⟨⟨12, rfl⟩, by decide, ⟨by decide, by decide⟩, rfl⟩

end RoomsScheduler
